import Mathlib

/-!
# dbdeployer, `common/capabilities.go`: capability catalog and capability query

A shallow embedding of `common/capabilities.go`.

* A Go `[]int` is an `IntSlice`: `none` is the `nil` slice, `some l` a slice with the
  elements `l`.  Slices are never written to in this file, so they are plain values.
* A Go `map[string]Capability` is a reference to a map object.  Map objects live in a
  `Heap`; a `FeatureList` is the address of one.  The contents of a map object are an
  association list; `range` visits the entries in the order of that list, so a statement
  that holds for every list with the same entries holds for every order of visit.
* A Go result `(bool, error)` is a pair `Bool × Option GoError`; `none` is the `nil` error.
* `VersionToList`, `GreaterOrEqualVersionList` and the version constants of package
  `globals` are declared in other files of the repository.  The functions of this file
  take them as parameters (`VersionHelpers`, `Globals`).
-/

namespace Common

/-! ## Go values -/

/-- Go `[]int`; `none` is the `nil` slice. -/
abbrev IntSlice := Option (List Int)

/-- Go `error` values that are not `nil`, identified by their message. -/
abbrev GoError := String

/-- Contents of a Go map object with string keys: its entries, each key once. -/
abbrev MapObject (V : Type) := List (String × V)

/-- Go `m[k]` with the `ok` flag: the value stored under `k`, if any. -/
def mapGet {V : Type} : MapObject V → String → Option V
  | [], _ => none
  | (k', v) :: rest, k => if k' = k then some v else mapGet rest k

/-- Go `m[k] = v`: replaces the entry of `k`, or adds one. -/
def mapSet {V : Type} : MapObject V → String → V → MapObject V
  | [], k, v => [(k, v)]
  | (k', v') :: rest, k, v =>
    if k' = k then (k, v) :: rest else (k', v') :: mapSet rest k v

/-- Keys of a map object. -/
def mapKeys {V : Type} (m : MapObject V) : List String := m.map Prod.fst

/-! ## Types of `capabilities.go` -/

/-- Go `type MinimumVersion []int`. -/
abbrev MinimumVersion := IntSlice

/-- Go `struct Capability`. -/
structure Capability where
  Description : String
  Since : MinimumVersion
  Until : MinimumVersion
  deriving DecidableEq, Repr

/-- Zero value of `Capability`, what a map read of a missing key yields. -/
def Capability.zero : Capability := ⟨"", none, none⟩

/-- Go `type FeatureList map[string]Capability`: the address of a map object. -/
abbrev FeatureList := Nat

/-- Map objects allocated so far, addressed by position. -/
abbrev Heap := List (MapObject Capability)

/-- Contents of the map at address `r`; a `nil` or unallocated map reads as empty. -/
def Heap.read (h : Heap) (r : FeatureList) : MapObject Capability := h.getD r []

/-- Go `make(FeatureList)` or a map literal: a new map object with the given entries. -/
def Heap.alloc (h : Heap) (entries : MapObject Capability) : FeatureList × Heap :=
  (h.length, h ++ [entries])

/-- Go `m[k] = v` on the map object at address `r`. -/
def Heap.assign (h : Heap) (r : FeatureList) (k : String) (v : Capability) : Heap :=
  h.set r (mapSet (h.read r) k v)

/-- Go `struct Capabilities`. -/
structure Capabilities where
  Flavor : String
  Description : String
  Features : FeatureList
  deriving DecidableEq, Repr

/-- Go `struct ElementPath`. -/
structure ElementPath where
  dir : String
  fileName : String
  deriving DecidableEq, Repr

/-- Go `struct FlavorIndicator`. -/
structure FlavorIndicator where
  elements : List ElementPath
  flavor : String
  AllNeeded : Bool
  deriving DecidableEq, Repr

/-! ## Constants -/

def MySQLFlavor : String := "mysql"
def PerconaServerFlavor : String := "percona"
def MariaDbFlavor : String := "mariadb"
def NDBFlavor : String := "ndb"
def PxcFlavor : String := "pxc"
def TiDbFlavor : String := "tidb"

def InstallDb : String := "installdb"
def DynVariables : String := "dynVars"
def SemiSynch : String := "semiSync"
def CrashSafe : String := "crashSafe"
def GTID : String := "GTID"
def EnhancedGTID : String := "enhancedGTID"
def Initialize : String := "initialize"
def CreateUser : String := "createUser"
def SuperReadOnly : String := "superReadOnly"
def MySQLX : String := "mysqlx"
def MySQLXDefault : String := "mysqlxDefault"
def MultiSource : String := "multiSource"
def GroupReplication : String := "groupReplication"
def SetPersist : String := "setPersist"
def Roles : String := "roles"
def NativeAuth : String := "nativeAuth"
def DataDict : String := "datadict"
def XtradbCluster : String := "xtradbCluster"
def RootAuth : String := "rootAuth"

/-- Version constants of package `globals` that `capabilities.go` refers to.  The package
is not part of this file; its constants are parameters of the catalog. -/
structure Globals where
  MinimumMySQLInstallDb : IntSlice
  MaximumMySQLInstallDb : IntSlice
  MinimumDynVariablesVersion : IntSlice
  MinimumSemiSyncVersion : IntSlice
  MinimumCrashSafeVersion : IntSlice
  MinimumGtidVersion : IntSlice
  MinimumEnhancedGtidVersion : IntSlice
  MinimumDefaultInitializeVersion : IntSlice
  MinimumCreateUserVersion : IntSlice
  MinimumSuperReadOnly : IntSlice
  MinimumMysqlxVersion : IntSlice
  MinimumMysqlxDefaultVersion : IntSlice
  MinimumMultiSourceReplVersion : IntSlice
  MinimumGroupReplVersion : IntSlice
  MinimumPersistVersion : IntSlice
  MinimumRolesVersion : IntSlice
  MinimumNativeAuthPluginVersion : IntSlice
  MinimumDataDictionaryVersion : IntSlice
  MinimumXtradbClusterVersion : IntSlice
  MinimumRootAuthVersion : IntSlice

/-- The two version helpers `HasCapability` calls.  They are defined in another file of
package `common`; here they are parameters with their Go signatures
`VersionToList(string) ([]int, error)` and
`GreaterOrEqualVersionList([]int, []int) (bool, error)`. -/
structure VersionHelpers where
  VersionToList : String → IntSlice × Option GoError
  GreaterOrEqualVersionList : IntSlice → IntSlice → Bool × Option GoError

/-! ## `FlavorCompositionList` -/

/-- Go `var FlavorCompositionList`. -/
def FlavorCompositionList : List FlavorIndicator := [
  { AllNeeded := true,
    elements := [⟨"bin", "garbd"⟩, ⟨"lib", "libgalera_smm.so"⟩,
      ⟨"lib", "libperconaserverclient.so"⟩],
    flavor := PxcFlavor },
  { AllNeeded := true,
    elements := [⟨"bin", "garbd"⟩, ⟨"lib", "libgalera_smm.a"⟩,
      ⟨"lib", "libperconaserverclient.a"⟩],
    flavor := PxcFlavor },
  { AllNeeded := true,
    elements := [⟨"bin", "garbd"⟩, ⟨"lib", "libgalera_smm.dylib"⟩,
      ⟨"lib", "libperconaserverclient.dylib"⟩],
    flavor := PxcFlavor },
  { AllNeeded := false,
    elements := [⟨"bin", "aria_chk"⟩, ⟨"lib", "libmariadbclient.a"⟩,
      ⟨"lib", "libmariadbclient.dylib"⟩, ⟨"lib", "libmariadb.a"⟩,
      ⟨"lib", "libmariadb.dylib"⟩],
    flavor := MariaDbFlavor },
  { AllNeeded := false,
    elements := [⟨"lib", "libperconaserverclient.a"⟩, ⟨"lib", "libperconaserverclient.so"⟩,
      ⟨"lib", "libperconaserverclient.dylib"⟩],
    flavor := PerconaServerFlavor },
  { AllNeeded := false,
    elements := [⟨"bin", "tidb-server"⟩],
    flavor := TiDbFlavor },
  { AllNeeded := false,
    elements := [⟨"bin", "mysqld"⟩, ⟨"bin", "mysqld-debug"⟩, ⟨"lib", "libmysqlclient.a"⟩],
    flavor := MySQLFlavor }]

/-! ## `addCapabilities` -/

/-- Go `addCapabilities`: a new map object receives the entries of `flavorFeatures`, then
those of `features`. -/
def addCapabilities (flavorFeatures features : FeatureList) (h : Heap) : FeatureList × Heap :=
  let (fList, h) := h.alloc []
  let h := (h.read flavorFeatures).foldl
    (fun h entry => h.assign fList entry.1 entry.2) h
  let h := (h.read features).foldl
    (fun h entry => h.assign fList entry.1 entry.2) h
  (fList, h)

/-! ## Package variables and their initialisation -/

/-- Package-level variables of `capabilities.go`, with the heap their maps live in. -/
structure Package where
  heap : Heap
  MySQLCapabilities : Capabilities
  PerconaCapabilities : Capabilities
  TiDBCapabilities : Capabilities
  NDBCapabilities : Capabilities
  PxcCapabilities : Capabilities
  MariadbCapabilities : Capabilities
  AllCapabilities : MapObject Capabilities

/-- Entries of the map literal of `MySQLCapabilities.Features`. -/
def mysqlFeatureEntries (g : Globals) : MapObject Capability := [
  (InstallDb, ⟨"uses mysql_install_db", g.MinimumMySQLInstallDb, g.MaximumMySQLInstallDb⟩),
  (DynVariables, ⟨"dynamic variables", g.MinimumDynVariablesVersion, none⟩),
  (SemiSynch, ⟨"semi-synchronous replication", g.MinimumSemiSyncVersion, none⟩),
  (CrashSafe, ⟨"crash-safe replication", g.MinimumCrashSafeVersion, none⟩),
  (GTID, ⟨"Global transaction identifiers", g.MinimumGtidVersion, none⟩),
  (EnhancedGTID, ⟨"Enhanced Global transaction identifiers",
    g.MinimumEnhancedGtidVersion, none⟩),
  (Initialize, ⟨"mysqld --initialize as default", g.MinimumDefaultInitializeVersion, none⟩),
  (CreateUser, ⟨"Create user mandatory", g.MinimumCreateUserVersion, none⟩),
  (SuperReadOnly, ⟨"super-read-only support", g.MinimumSuperReadOnly, none⟩),
  (MySQLX, ⟨"MySQLX supported", g.MinimumMysqlxVersion, none⟩),
  (MySQLXDefault, ⟨"MySQLX enabled by default", g.MinimumMysqlxDefaultVersion, none⟩),
  (MultiSource, ⟨"multi-source replication", g.MinimumMultiSourceReplVersion, none⟩),
  (GroupReplication, ⟨"group replication", g.MinimumGroupReplVersion, none⟩),
  (SetPersist, ⟨"Set persist supported", g.MinimumPersistVersion, none⟩),
  (Roles, ⟨"Roles supported", g.MinimumRolesVersion, none⟩),
  (NativeAuth, ⟨"Native Authentication plugin", g.MinimumNativeAuthPluginVersion, none⟩),
  (DataDict, ⟨"data dictionary", g.MinimumDataDictionaryVersion, none⟩)]

/-- Entries of the map literal that `PxcCapabilities` passes to `addCapabilities`. -/
def pxcExtraEntries (g : Globals) : MapObject Capability := [
  (XtradbCluster, ⟨"Xtradb Cluster creation", g.MinimumXtradbClusterVersion, none⟩)]

/-- Package initialisation: the `var` declarations of `capabilities.go` in the order of
the file, which is also their dependency order. -/
def initPackage (g : Globals) : Package :=
  let heap : Heap := []
  -- var MySQLCapabilities
  let (mysqlFeatures, heap) := heap.alloc (mysqlFeatureEntries g)
  let MySQLCapabilities : Capabilities :=
    { Flavor := MySQLFlavor, Description := "MySQL server", Features := mysqlFeatures }
  -- var PerconaCapabilities
  let PerconaCapabilities : Capabilities :=
    { Flavor := PerconaServerFlavor, Description := "Percona Server",
      Features := MySQLCapabilities.Features }
  -- var TiDBCapabilities
  let (tidbFeatures, heap) := heap.alloc []
  let TiDBCapabilities : Capabilities :=
    { Flavor := TiDbFlavor, Description := "TiDB isolated server", Features := tidbFeatures }
  -- var NDBCapabilities
  let (ndbFeatures, heap) := heap.alloc []
  let NDBCapabilities : Capabilities :=
    { Flavor := NDBFlavor, Description := "MySQL NDB Cluster", Features := ndbFeatures }
  -- var PxcCapabilities
  let (pxcExtra, heap) := heap.alloc (pxcExtraEntries g)
  let (pxcFeatures, heap) := addCapabilities PerconaCapabilities.Features pxcExtra heap
  let PxcCapabilities : Capabilities :=
    { Flavor := PxcFlavor, Description := "Percona XtraDB Cluster", Features := pxcFeatures }
  -- var MariadbCapabilities
  let (mariadbFeatures, heap) := heap.alloc [
    (InstallDb, ⟨"uses mysql_install_db", g.MinimumMySQLInstallDb, none⟩),
    (RootAuth, ⟨"Root Authentication during install", g.MinimumRootAuthVersion, none⟩),
    (DynVariables,
      (mapGet (heap.read MySQLCapabilities.Features) DynVariables).getD Capability.zero),
    (SemiSynch,
      (mapGet (heap.read MySQLCapabilities.Features) SemiSynch).getD Capability.zero)]
  let MariadbCapabilities : Capabilities :=
    { Flavor := MariaDbFlavor, Description := "", Features := mariadbFeatures }
  -- var AllCapabilities
  { heap := heap
    MySQLCapabilities := MySQLCapabilities
    PerconaCapabilities := PerconaCapabilities
    TiDBCapabilities := TiDBCapabilities
    NDBCapabilities := NDBCapabilities
    PxcCapabilities := PxcCapabilities
    MariadbCapabilities := MariadbCapabilities
    AllCapabilities := [
      (MySQLFlavor, MySQLCapabilities),
      (PerconaServerFlavor, PerconaCapabilities),
      (MariaDbFlavor, MariadbCapabilities),
      (TiDbFlavor, TiDBCapabilities),
      (NDBFlavor, NDBCapabilities),
      (PxcFlavor, PxcCapabilities)] }

/-! ## `copyCapabilities` and `HasCapability` -/

/-- Go `copyCapabilities`.  The package variables are read from `p`; the new map object
is allocated in `p.heap`. -/
def copyCapabilities (p : Package) (flavor : String) (names : List String) :
    FeatureList × Heap :=
  let (fList, h) := p.heap.alloc []
  match mapGet p.AllCapabilities flavor with
  | none => (fList, h)
  | some capabilities =>
    let h := (h.read capabilities.Features).foldl
      (fun h entry =>
        names.foldl (fun h n => if entry.1 = n then h.assign fList n entry.2 else h) h) h
    (fList, h)

/-- Lines 332-343 of `HasCapability`: the answer for a feature definition that was found. -/
def capabilityAnswer (ops : VersionHelpers) (versionList : IntSlice)
    (featureDefinition : Capability) : Bool × Option GoError :=
  match ops.GreaterOrEqualVersionList versionList featureDefinition.Since with
  | (_, some err) => (false, some err)
  | (overMinimum, none) =>
    match featureDefinition.Until with
    | none => (overMinimum && true, none)
    | some u =>
      match ops.GreaterOrEqualVersionList (some u) versionList with
      | (_, some err) => (false, some err)
      | (withinMaximum, none) => (overMinimum && withinMaximum, none)

/-- The `for ... range AllCapabilities` loop of `HasCapability`, over the entries still to
be visited. -/
def scanCapabilities (ops : VersionHelpers) (h : Heap) (versionList : IntSlice)
    (flavor feature : String) : MapObject Capabilities → Bool × Option GoError
  | [] => (false, none)
  | (flavorName, capabilities) :: rest =>
    if flavorName = flavor then
      match mapGet (h.read capabilities.Features) feature with
      | some featureDefinition => capabilityAnswer ops versionList featureDefinition
      | none => scanCapabilities ops h versionList flavor feature rest
    else scanCapabilities ops h versionList flavor feature rest

/-- Go `HasCapability`, reading the package variables from `p`. -/
def HasCapability (ops : VersionHelpers) (p : Package) (flavor feature version : String) :
    Bool × Option GoError :=
  match ops.VersionToList version with
  | (_, some err) => (false, some err)
  | (versionList, none) =>
    scanCapabilities ops p.heap versionList flavor feature p.AllCapabilities

/-! ## The version helpers as the specification describes them -/

/-- Modelled from the spec: the splitting step of `parseVersion` ("splits on `.`"), on the
characters of the string.  `VersionToList` itself is not in `capabilities.go`. -/
def splitOnDots : List Char → List (List Char)
  | [] => [[]]
  | c :: cs =>
    if c = '.' then [] :: splitOnDots cs
    else
      match splitOnDots cs with
      | [] => [[c]]
      | seg :: segs => (c :: seg) :: segs

/-- Modelled from the spec: one segment of `parseVersion` ("converts each segment to an
integer", failing when the segment is "empty, non-numeric, or negative"). -/
def segmentToInt (seg : List Char) : Option Int :=
  if seg ≠ [] ∧ seg.all Char.isDigit = true then
    some (seg.foldl (fun n c => 10 * n + ((c.toNat : Int) - 48)) 0)
  else none

/-- Modelled from the spec: all segments of `parseVersion`, failing at the first bad one. -/
def segmentsToInts : List (List Char) → Option (List Int)
  | [] => some []
  | seg :: segs =>
    match segmentToInt seg, segmentsToInts segs with
    | some n, some ns => some (n :: ns)
    | _, _ => none

/-- Modelled from the spec: `parseVersion`, the specification's description of the absent
`VersionToList`, with Go's `([]int, error)` result. -/
def specVersionToList (version : String) : IntSlice × Option GoError :=
  match segmentsToInts (splitOnDots version.toList) with
  | some l => (some l, none)
  | none => (none, some "VersionParseError")

/-- Modelled from the spec: `compare` on two versions, component by component; when one
version is a strict prefix of the other the shorter one is the smaller. -/
def specCompare : List Int → List Int → Ordering
  | [], [] => Ordering.eq
  | [], _ :: _ => Ordering.lt
  | _ :: _, [] => Ordering.gt
  | a :: as, b :: bs =>
    if a < b then Ordering.lt else if b < a then Ordering.gt else specCompare as bs

/-- Modelled from the spec: `isAtLeast(a, b)`, "true when `compare(a, b)` is equal or
greater", the specification's description of the absent `GreaterOrEqualVersionList`.  It
is a total boolean function; a `nil` slice is read as the empty version. -/
def specGreaterOrEqualVersionList (verList compareTo : IntSlice) : Bool × Option GoError :=
  (specCompare (verList.getD []) (compareTo.getD []) != Ordering.lt, none)

/-- Modelled from the spec: the two version helpers as sections 4.1 and 4.4 describe
them. -/
def specHelpers : VersionHelpers :=
  { VersionToList := specVersionToList
    GreaterOrEqualVersionList := specGreaterOrEqualVersionList }

/-- One assignment of the `globals` constants, for evaluating the catalog on concrete
inputs.  No theorem below depends on these particular values except where it names
`sampleGlobals`. -/
def sampleGlobals : Globals :=
  { MinimumMySQLInstallDb := some [3, 3, 23]
    MaximumMySQLInstallDb := some [5, 6, 999]
    MinimumDynVariablesVersion := some [5, 1, 0]
    MinimumSemiSyncVersion := some [5, 5, 1]
    MinimumCrashSafeVersion := some [5, 6, 2]
    MinimumGtidVersion := some [5, 6, 9]
    MinimumEnhancedGtidVersion := some [5, 7, 0]
    MinimumDefaultInitializeVersion := some [5, 7, 0]
    MinimumCreateUserVersion := some [5, 7, 6]
    MinimumSuperReadOnly := some [5, 7, 8]
    MinimumMysqlxVersion := some [5, 7, 12]
    MinimumMysqlxDefaultVersion := some [8, 0, 11]
    MinimumMultiSourceReplVersion := some [5, 7, 9]
    MinimumGroupReplVersion := some [5, 7, 17]
    MinimumPersistVersion := some [8, 0, 0]
    MinimumRolesVersion := some [8, 0, 0]
    MinimumNativeAuthPluginVersion := some [8, 0, 4]
    MinimumDataDictionaryVersion := some [8, 0, 0]
    MinimumXtradbClusterVersion := some [5, 6, 14]
    MinimumRootAuthVersion := some [10, 4, 3] }

/-- A heap with two feature lists, for evaluating `addCapabilities` on concrete inputs:
at address 0 a base list, at address 1 a list that redefines `dynVars` and adds
`xtradbCluster`. -/
def sampleHeap : Heap := [
  [(InstallDb, ⟨"uses mysql_install_db", some [3, 3, 23], some [5, 6, 999]⟩),
   (DynVariables, ⟨"dynamic variables", some [5, 1, 0], none⟩)],
  [(DynVariables, ⟨"dynamic variables, redefined", some [5, 5, 0], none⟩),
   (XtradbCluster, ⟨"Xtradb Cluster creation", some [5, 6, 14], none⟩)]]

/-! ## Loops that write to one map -/

/-- A loop body writes only to the map at address `r`, and what it writes there is given
by `fm` on the contents of that map. -/
def WritesOnly {X : Type} (r : FeatureList) (f : Heap → X → Heap)
    (fm : MapObject Capability → X → MapObject Capability) : Prop :=
  ∀ (h : Heap) (x : X), r < h.length →
    (f h x).length = h.length ∧ (f h x).read r = fm (h.read r) x ∧
      ∀ r₀, r₀ ≠ r → (f h x).read r₀ = h.read r₀

/-- Body of the inner loop of `copyCapabilities`, on map contents. -/
def copyName (entry : String × Capability) (m : MapObject Capability) (n : String) :
    MapObject Capability :=
  if entry.1 = n then mapSet m n entry.2 else m

/-- Body of the outer loop of `copyCapabilities`, on map contents. -/
def copyEntry (names : List String) (m : MapObject Capability)
    (entry : String × Capability) : MapObject Capability :=
  names.foldl (copyName entry) m

/-- Contents of the map that `addCapabilities` returns. -/
def addCapabilitiesResult (flavorFeatures features : FeatureList) (h : Heap) :
    MapObject Capability :=
  (addCapabilities flavorFeatures features h).2.read (addCapabilities flavorFeatures features h).1

/-- Contents of the map that `copyCapabilities` returns. -/
def copyCapabilitiesResult (p : Package) (flavor : String) (names : List String) :
    MapObject Capability :=
  (copyCapabilities p flavor names).2.read (copyCapabilities p flavor names).1

/-! ## Flavor detection as the specification describes it -/

/-- Modelled from the spec: the sentinel that `detectFlavor` reports when no signature
matches.  The detection function is not in `capabilities.go`. -/
def unknownFlavor : String := "unknown"

/-- Modelled from the spec: whether a signature matches the files that exist, section 4.3:
with `allNeeded` every listed element must exist, without it one existing element is
enough. -/
def indicatorMatches (fileExists : ElementPath → Bool) (fi : FlavorIndicator) : Bool :=
  if fi.AllNeeded then fi.elements.all fileExists else fi.elements.any fileExists

/-- Modelled from the spec: `detectFlavor`, section 4.3: the signatures are tried in the
order of the list, the flavor of the first one that matches is returned, and "unknown"
when none matches.  The detection function is not in `capabilities.go`; the list it runs
on, `FlavorCompositionList`, is. -/
def detectFlavor (fileExists : ElementPath → Bool) : List FlavorIndicator → String
  | [] => unknownFlavor
  | fi :: rest =>
    if indicatorMatches fileExists fi then fi.flavor else detectFlavor fileExists rest

/-- A directory that holds exactly the listed files. -/
def directoryOf (files : List ElementPath) : ElementPath → Bool :=
  fun e => decide (e ∈ files)

/-! ## The capability query by direct lookup -/

/-- The answer of the capability query for a flavor whose feature list holds the entries
`features`: parse the version, look the feature up, compare (lines 332-343). -/
def answerIn (ops : VersionHelpers) (features : MapObject Capability)
    (feature version : String) : Bool × Option GoError :=
  match ops.VersionToList version with
  | (_, some err) => (false, some err)
  | (versionList, none) =>
    match mapGet features feature with
    | none => (false, none)
    | some featureDefinition => capabilityAnswer ops versionList featureDefinition

/-- Specification of `HasCapability`, section 4.4 steps 1 to 6: parse the version, look
the flavor up in the catalog, look the feature up in the flavor's features, compare.  No
scan over the catalog takes place. -/
def HasCapabilityDirect (ops : VersionHelpers) (p : Package)
    (flavor feature version : String) : Bool × Option GoError :=
  match mapGet p.AllCapabilities flavor with
  | none =>
    (match ops.VersionToList version with
     | (_, some err) => (false, some err)
     | (_, none) => (false, none))
  | some capabilities => answerIn ops (p.heap.read capabilities.Features) feature version

/-- The package `p` with the entries of `AllCapabilities` visited in reverse order. -/
def Package.reversed (p : Package) : Package :=
  { p with AllCapabilities := p.AllCapabilities.reverse }

/-! ## Map objects: reading, writing, keys -/

theorem mapGet_mapSet_self {V : Type} (m : MapObject V) (k : String) (v : V) :
    mapGet (mapSet m k v) k = some v := by
  induction m with
  | nil => simp [mapSet, mapGet]
  | cons e rest ih =>
    obtain ⟨k', v'⟩ := e
    by_cases hk : k' = k
    · simp [mapSet, mapGet, hk]
    · simp [mapSet, mapGet, hk, ih]

theorem mapGet_mapSet_other {V : Type} (m : MapObject V) (k k₀ : String) (v : V)
    (hne : k ≠ k₀) : mapGet (mapSet m k v) k₀ = mapGet m k₀ := by
  induction m with
  | nil => simp [mapSet, mapGet, hne]
  | cons e rest ih =>
    obtain ⟨k', v'⟩ := e
    by_cases hk : k' = k
    · subst hk
      simp [mapSet, mapGet, hne]
    · by_cases hk₀ : k' = k₀
      · subst hk₀
        simp [mapSet, mapGet, hk]
      · simp [mapSet, mapGet, hk, hk₀, ih]

theorem mem_mapKeys_mapSet {V : Type} (m : MapObject V) (k k₀ : String) (v : V) :
    k₀ ∈ mapKeys (mapSet m k v) ↔ k₀ = k ∨ k₀ ∈ mapKeys m := by
  induction m with
  | nil => simp [mapSet, mapKeys]
  | cons e rest ih =>
    obtain ⟨k', v'⟩ := e
    by_cases hk : k' = k
    · subst hk
      simp [mapSet, mapKeys]
    · simp only [mapKeys] at ih
      simp only [mapSet, hk, if_false, mapKeys, List.map_cons, List.mem_cons, ih]
      tauto

theorem nodup_mapKeys_mapSet {V : Type} (m : MapObject V) (k : String) (v : V)
    (hm : (mapKeys m).Nodup) : (mapKeys (mapSet m k v)).Nodup := by
  induction m with
  | nil => simp [mapSet, mapKeys]
  | cons e rest ih =>
    obtain ⟨k', v'⟩ := e
    have hm' : k' ∉ mapKeys rest ∧ (mapKeys rest).Nodup := by
      simpa [mapKeys] using hm
    by_cases hk : k' = k
    · subst hk
      simpa [mapSet, mapKeys] using hm
    · have hnot : k' ∉ mapKeys (mapSet rest k v) := by
        rw [mem_mapKeys_mapSet]
        rintro (h | h)
        · exact hk h
        · exact hm'.1 h
      have hrec := ih hm'.2
      simp only [mapSet, hk, if_false]
      simp only [mapKeys, List.map_cons, List.nodup_cons]
      exact ⟨hnot, hrec⟩

theorem mapGet_eq_none_iff {V : Type} (m : MapObject V) (k : String) :
    mapGet m k = none ↔ k ∉ mapKeys m := by
  induction m with
  | nil => simp [mapGet, mapKeys]
  | cons e rest ih =>
    obtain ⟨k', v'⟩ := e
    by_cases hk : k' = k
    · simp [mapGet, mapKeys, hk]
    · simp only [mapKeys] at ih
      simp only [mapGet, hk, if_false, ih, mapKeys, List.map_cons, List.mem_cons]
      constructor
      · rintro h (h' | h')
        · exact hk h'.symm
        · exact h h'
      · intro h h'
        exact h (Or.inr h')

theorem mem_of_mapGet {V : Type} (m : MapObject V) (k : String) (v : V)
    (h : mapGet m k = some v) : (k, v) ∈ m := by
  induction m with
  | nil => simp [mapGet] at h
  | cons e rest ih =>
    obtain ⟨k', v'⟩ := e
    by_cases hk : k' = k
    · simp [mapGet, hk] at h
      simp [hk, h]
    · simp only [mapGet, hk, if_false] at h
      exact List.mem_cons_of_mem _ (ih h)

theorem mapGet_of_mem {V : Type} (m : MapObject V) (k : String) (v : V)
    (hm : (mapKeys m).Nodup) (h : (k, v) ∈ m) : mapGet m k = some v := by
  induction m with
  | nil => simp at h
  | cons e rest ih =>
    obtain ⟨k', v'⟩ := e
    have hm' : k' ∉ mapKeys rest ∧ (mapKeys rest).Nodup := by
      simpa [mapKeys] using hm
    rcases List.mem_cons.1 h with h | h
    · cases h
      simp [mapGet]
    · have hne : k' ≠ k := by
        rintro rfl
        exact hm'.1 (List.mem_map_of_mem Prod.fst h)
      simp only [mapGet, hne, if_false]
      exact ih hm'.2 h

/-- A map object holds one value per key. -/
theorem eq_of_mem_of_mapGet {V : Type} (m : MapObject V) (k : String) (v v₀ : V)
    (hm : (mapKeys m).Nodup) (hget : mapGet m k = some v₀) (h : (k, v) ∈ m) : v = v₀ := by
  have hv := mapGet_of_mem m k v hm h
  rw [hget] at hv
  exact (Option.some.inj hv).symm

/-- Writing a list of entries into a map, one after the other: an entry of the list wins
over the map, as long as the list names each key once. -/
theorem mapGet_foldl_mapSet {V : Type} (l : MapObject V) (m : MapObject V) (k : String)
    (hl : (mapKeys l).Nodup) :
    mapGet (l.foldl (fun acc e => mapSet acc e.1 e.2) m) k =
      (match mapGet l k with
       | some v => some v
       | none => mapGet m k) := by
  induction l generalizing m with
  | nil => simp [mapGet]
  | cons e rest ih =>
    obtain ⟨k', v'⟩ := e
    have hl' : k' ∉ mapKeys rest ∧ (mapKeys rest).Nodup := by
      simpa [mapKeys] using hl
    rw [List.foldl_cons, ih _ hl'.2]
    by_cases hk : k' = k
    · subst hk
      have hnone : mapGet rest k' = none := (mapGet_eq_none_iff rest k').2 hl'.1
      simp [hnone, mapGet, mapGet_mapSet_self]
    · simp [mapGet, hk, mapGet_mapSet_other _ _ _ _ hk]

theorem nodup_foldl_mapSet {V : Type} (l : MapObject V) (m : MapObject V)
    (hm : (mapKeys m).Nodup) :
    (mapKeys (l.foldl (fun acc e => mapSet acc e.1 e.2) m)).Nodup := by
  induction l generalizing m with
  | nil => simpa using hm
  | cons e rest ih =>
    rw [List.foldl_cons]
    exact ih _ (nodup_mapKeys_mapSet m e.1 e.2 hm)

theorem mem_mapKeys_foldl_mapSet {V : Type} (l : MapObject V) (m : MapObject V)
    (k : String) :
    k ∈ mapKeys (l.foldl (fun acc e => mapSet acc e.1 e.2) m) ↔
      k ∈ mapKeys l ∨ k ∈ mapKeys m := by
  induction l generalizing m with
  | nil => simp [mapKeys]
  | cons e rest ih =>
    rw [List.foldl_cons, ih, mem_mapKeys_mapSet]
    simp only [mapKeys, List.map_cons, List.mem_cons]
    tauto

/-! ## Heap: reading after allocation and assignment -/

theorem Heap.read_alloc_old (h : Heap) (entries : MapObject Capability) (r : FeatureList)
    (hr : r < h.length) : (h.alloc entries).2.read r = h.read r := by
  simp [Heap.alloc, Heap.read, List.getD_eq_getElem?_getD, List.getElem?_append_left hr]

theorem Heap.read_alloc_new (h : Heap) (entries : MapObject Capability) :
    (h.alloc entries).2.read (h.alloc entries).1 = entries := by
  simp [Heap.alloc, Heap.read, List.getD_eq_getElem?_getD]

theorem Heap.length_alloc (h : Heap) (entries : MapObject Capability) :
    (h.alloc entries).2.length = h.length + 1 := by
  simp [Heap.alloc]

theorem Heap.length_assign (h : Heap) (r : FeatureList) (k : String) (v : Capability) :
    (h.assign r k v).length = h.length := by
  simp [Heap.assign]

theorem Heap.read_assign_same (h : Heap) (r : FeatureList) (k : String) (v : Capability)
    (hr : r < h.length) : (h.assign r k v).read r = mapSet (h.read r) k v := by
  simp [Heap.assign, Heap.read, List.getD_eq_getElem?_getD, List.getElem?_set, hr]

theorem Heap.read_assign_other (h : Heap) (r r₀ : FeatureList) (k : String) (v : Capability)
    (hne : r ≠ r₀) : (h.assign r k v).read r₀ = h.read r₀ := by
  simp [Heap.assign, Heap.read, List.getD_eq_getElem?_getD, List.getElem?_set, hne]

/-! ## Loops on the heap -/

theorem WritesOnly.assign (r : FeatureList) :
    WritesOnly r (fun h (e : String × Capability) => h.assign r e.1 e.2)
      (fun m e => mapSet m e.1 e.2) := by
  intro h e hr
  exact ⟨Heap.length_assign h r e.1 e.2, Heap.read_assign_same h r e.1 e.2 hr,
    fun r₀ hne => Heap.read_assign_other h r r₀ e.1 e.2 (Ne.symm hne)⟩

/-- A loop whose body writes only to the map at `r` writes only to the map at `r`. -/
theorem WritesOnly.foldl {X : Type} (r : FeatureList) (f : Heap → X → Heap)
    (fm : MapObject Capability → X → MapObject Capability) (hf : WritesOnly r f fm) :
    WritesOnly r (fun h (xs : List X) => xs.foldl f h) (fun m xs => xs.foldl fm m) := by
  intro h xs
  induction xs generalizing h with
  | nil =>
    intro _
    exact ⟨rfl, rfl, fun _ _ => rfl⟩
  | cons x rest ih =>
    intro hr
    obtain ⟨hlen, hread, hother⟩ := hf h x hr
    obtain ⟨hlen', hread', hother'⟩ := ih (f h x) (by rw [hlen]; exact hr)
    simp only [List.foldl_cons] at hlen' hread' hother' ⊢
    refine ⟨by rw [hlen', hlen], by rw [hread', hread], ?_⟩
    intro r₀ hne
    rw [hother' r₀ hne, hother r₀ hne]

/-- Allocating an empty map changes no read: the new map reads as empty, as an address
that was not allocated did before. -/
theorem Heap.read_alloc_empty (h : Heap) (r : FeatureList) :
    (h.alloc []).2.read r = h.read r := by
  by_cases hr : r < h.length
  · exact Heap.read_alloc_old h [] r hr
  · have hge : h.length ≤ r := Nat.le_of_not_lt hr
    have hold : h.read r = [] := by
      simp [Heap.read, List.getD_eq_getElem?_getD, List.getElem?_eq_none hge]
    rw [hold]
    simp only [Heap.alloc, Heap.read, List.getD_eq_getElem?_getD,
      List.getElem?_append_right hge]
    cases r - h.length <;> simp

/-- What `addCapabilities` does to the heap: the result is the first free address, one map
is added, every map that existed reads as before, and the new map holds the entries of
`flavorFeatures` written in turn, then those of `features`. -/
theorem addCapabilities_heap (flavorFeatures features : FeatureList) (h : Heap)
    (hover : features < h.length) :
    (addCapabilities flavorFeatures features h).1 = h.length ∧
      (addCapabilities flavorFeatures features h).2.length = h.length + 1 ∧
      (∀ r, r < h.length →
        (addCapabilities flavorFeatures features h).2.read r = h.read r) ∧
      (addCapabilities flavorFeatures features h).2.read h.length =
        (h.read features).foldl (fun acc e => mapSet acc e.1 e.2)
          ((h.read flavorFeatures).foldl (fun acc e => mapSet acc e.1 e.2) []) := by
  have hloop := WritesOnly.foldl h.length _ _ (WritesOnly.assign h.length)
  have hlen₁ : h.length < (h.alloc []).2.length := by
    rw [Heap.length_alloc]; exact Nat.lt_succ_self _
  have hnew₁ : (h.alloc []).2.read h.length = [] := Heap.read_alloc_new h []
  obtain ⟨hlen₂, hread₂, hother₂⟩ := hloop (h.alloc []).2 (h.read flavorFeatures) hlen₁
  simp only at hlen₂ hread₂ hother₂
  rw [hnew₁] at hread₂
  obtain ⟨hlen₃, hread₃, hother₃⟩ := hloop _ (h.read features) (hlen₂ ▸ hlen₁)
  simp only at hlen₃ hread₃ hother₃
  rw [hread₂] at hread₃
  have hunfold : addCapabilities flavorFeatures features h =
      (h.length, (h.read features).foldl
        (fun h₁ (e : String × Capability) => h₁.assign h.length e.1 e.2)
        ((h.read flavorFeatures).foldl
          (fun h₁ (e : String × Capability) => h₁.assign h.length e.1 e.2)
          (h.alloc []).2)) := by
    have hfst : (h.alloc []).1 = h.length := rfl
    simp only [addCapabilities, hfst]
    rw [Heap.read_alloc_empty, hother₂ features (Nat.ne_of_lt hover),
      Heap.read_alloc_empty]
  rw [hunfold]
  refine ⟨rfl, ?_, ?_, hread₃⟩
  · simp only
    rw [hlen₃, hlen₂, Heap.length_alloc]
  · intro r hr
    simp only
    rw [hother₃ r (Nat.ne_of_lt hr), hother₂ r (Nat.ne_of_lt hr), Heap.read_alloc_empty]

/-! ## `copyCapabilities`: the loops on map contents -/

theorem mapGet_copyEntry (names : List String) (m : MapObject Capability)
    (entry : String × Capability) (k : String) :
    mapGet (copyEntry names m entry) k =
      if k = entry.1 ∧ entry.1 ∈ names then some entry.2 else mapGet m k := by
  unfold copyEntry
  induction names generalizing m with
  | nil => simp
  | cons n rest ih =>
    rw [List.foldl_cons, ih]
    by_cases hn : entry.1 = n
    · subst hn
      by_cases hk : k = entry.1
      · subst hk
        simp [copyName, mapGet_mapSet_self]
      · simp [copyName, hk, mapGet_mapSet_other _ _ _ _ (Ne.symm hk)]
    · have hn' : ¬ n = entry.1 := fun h => hn h.symm
      simp [copyName, hn, hn', List.mem_cons]

theorem nodup_copyEntry (names : List String) (m : MapObject Capability)
    (entry : String × Capability) (hm : (mapKeys m).Nodup) :
    (mapKeys (copyEntry names m entry)).Nodup := by
  unfold copyEntry
  induction names generalizing m with
  | nil => simpa using hm
  | cons n rest ih =>
    rw [List.foldl_cons]
    apply ih
    unfold copyName
    split
    · exact nodup_mapKeys_mapSet m n entry.2 hm
    · exact hm

/-- The outer loop of `copyCapabilities` on map contents: a name that was asked for reads
as in the source map, any other key as before the loop. -/
theorem mapGet_foldl_copyEntry (names : List String) (src m : MapObject Capability)
    (k : String) (hsrc : (mapKeys src).Nodup) :
    mapGet (src.foldl (copyEntry names) m) k =
      if k ∈ names then
        (match mapGet src k with
         | some v => some v
         | none => mapGet m k)
      else mapGet m k := by
  induction src generalizing m with
  | nil => simp [mapGet]
  | cons e rest ih =>
    obtain ⟨k₁, v₁⟩ := e
    have hsrc' : k₁ ∉ mapKeys rest ∧ (mapKeys rest).Nodup := by
      simpa [mapKeys] using hsrc
    rw [List.foldl_cons, ih _ hsrc'.2, mapGet_copyEntry]
    by_cases hmem : k ∈ names
    · by_cases hk : k₁ = k
      · subst hk
        have hnone : mapGet rest k₁ = none := (mapGet_eq_none_iff rest k₁).2 hsrc'.1
        simp [hmem, hnone, mapGet]
      · have hk' : ¬ k = k₁ := fun h => hk h.symm
        simp [hmem, hk, hk', mapGet]
    · have hne : ¬ (k = k₁ ∧ k₁ ∈ names) := by
        rintro ⟨rfl, h⟩
        exact hmem h
      simp [hmem, hne]

theorem nodup_foldl_copyEntry (names : List String) (src m : MapObject Capability)
    (hm : (mapKeys m).Nodup) : (mapKeys (src.foldl (copyEntry names) m)).Nodup := by
  induction src generalizing m with
  | nil => simpa using hm
  | cons e rest ih =>
    rw [List.foldl_cons]
    exact ih _ (nodup_copyEntry names m e hm)

theorem WritesOnly.copyName (r : FeatureList) (entry : String × Capability) :
    WritesOnly r (fun h n => if entry.1 = n then h.assign r n entry.2 else h)
      (Common.copyName entry) := by
  intro h n hr
  unfold Common.copyName
  by_cases hn : entry.1 = n
  · simp only [hn, if_true]
    exact ⟨Heap.length_assign h r n entry.2, Heap.read_assign_same h r n entry.2 hr,
      fun r₀ hne => Heap.read_assign_other h r r₀ n entry.2 (Ne.symm hne)⟩
  · simp [hn]

theorem WritesOnly.copyEntry (r : FeatureList) (names : List String) :
    WritesOnly r
      (fun h (entry : String × Capability) =>
        names.foldl (fun h n => if entry.1 = n then h.assign r n entry.2 else h) h)
      (Common.copyEntry names) := by
  intro h entry hr
  exact WritesOnly.foldl r _ _ (WritesOnly.copyName r entry) h names hr

/-- What `copyCapabilities` does to the heap when the flavor has an entry: the result is
the first free address, every map that existed reads as before, and the new map holds
what the two loops write from the entries of the flavor's feature list. -/
theorem copyCapabilities_heap (p : Package) (flavor : String) (names : List String)
    (caps : Capabilities) (hF : mapGet p.AllCapabilities flavor = some caps) :
    (copyCapabilities p flavor names).1 = p.heap.length ∧
      (∀ r, r < p.heap.length → (copyCapabilities p flavor names).2.read r = p.heap.read r) ∧
      (copyCapabilities p flavor names).2.read p.heap.length =
        (p.heap.read caps.Features).foldl (copyEntry names) [] := by
  have hloop := WritesOnly.foldl p.heap.length _ _ (WritesOnly.copyEntry p.heap.length names)
  have hlen₁ : p.heap.length < (p.heap.alloc []).2.length := by
    rw [Heap.length_alloc]; exact Nat.lt_succ_self _
  have hnew₁ : (p.heap.alloc []).2.read p.heap.length = [] := Heap.read_alloc_new p.heap []
  obtain ⟨_, hread₂, hother₂⟩ := hloop (p.heap.alloc []).2 (p.heap.read caps.Features) hlen₁
  simp only at hread₂ hother₂
  rw [hnew₁] at hread₂
  have hunfold : copyCapabilities p flavor names =
      (p.heap.length, (p.heap.read caps.Features).foldl
        (fun h (entry : String × Capability) =>
          names.foldl
            (fun h n => if entry.1 = n then h.assign p.heap.length n entry.2 else h) h)
        (p.heap.alloc []).2) := by
    have hfst : (p.heap.alloc []).1 = p.heap.length := rfl
    simp only [copyCapabilities, hF, hfst]
    rw [Heap.read_alloc_empty]
  rw [hunfold]
  refine ⟨rfl, ?_, hread₂⟩
  intro r hr
  simp only
  rw [hother₂ r (Nat.ne_of_lt hr), Heap.read_alloc_empty]

/-! ## The package after initialisation -/

/-- Writing a key the map does not have adds the entry at the end. -/
theorem mapSet_fresh {V : Type} (m : MapObject V) (k : String) (v : V)
    (hk : k ∉ mapKeys m) : mapSet m k v = m ++ [(k, v)] := by
  induction m with
  | nil => rfl
  | cons e rest ih =>
    obtain ⟨k', v'⟩ := e
    have hne : k' ≠ k := by
      intro h
      apply hk
      simp [mapKeys, h]
    have hrest : k ∉ mapKeys rest := by
      intro h
      apply hk
      simp only [mapKeys, List.map_cons, List.mem_cons]
      exact Or.inr h
    simp [mapSet, hne, ih hrest]

/-- Writing entries with keys that are new and pairwise distinct appends them in turn. -/
theorem foldl_mapSet_fresh {V : Type} (l m : MapObject V)
    (hk : (mapKeys (m ++ l)).Nodup) :
    l.foldl (fun acc e => mapSet acc e.1 e.2) m = m ++ l := by
  induction l generalizing m with
  | nil => simp
  | cons e rest ih =>
    have hfresh : e.1 ∉ mapKeys m := by
      intro h
      simp only [mapKeys, List.map_append, List.map_cons] at hk h
      have := (List.nodup_append.1 hk).2.2
      exact this h (List.mem_cons_self _ _)
    rw [List.foldl_cons, mapSet_fresh m e.1 e.2 hfresh, ih]
    · simp
    · simpa using hk

/-- A write to the map allocated last changes that map only. -/
theorem Heap.assign_last (h : Heap) (x : MapObject Capability) (k : String)
    (v : Capability) : Heap.assign (h ++ [x]) h.length k v = h ++ [mapSet x k v] := by
  simp [Heap.assign, Heap.read, List.getD_eq_getElem?_getD, List.set_append]

/-- A loop of writes to the map allocated last. -/
theorem Heap.foldl_assign_last (h : Heap) (x l : MapObject Capability) :
    l.foldl (fun h₁ (e : String × Capability) => Heap.assign h₁ h.length e.1 e.2) (h ++ [x])
      = h ++ [l.foldl (fun acc e => mapSet acc e.1 e.2) x] := by
  induction l generalizing x with
  | nil => rfl
  | cons e rest ih =>
    rw [List.foldl_cons, Heap.assign_last, ih]
    rfl

/-- The heap after `addCapabilities`: the heap before, followed by the new map. -/
theorem addCapabilities_eq (flavorFeatures features : FeatureList) (h : Heap)
    (hover : features < h.length) :
    addCapabilities flavorFeatures features h =
      (h.length, h ++ [(h.read features).foldl (fun acc e => mapSet acc e.1 e.2)
          ((h.read flavorFeatures).foldl (fun acc e => mapSet acc e.1 e.2) [])]) := by
  have hbase : Heap.read (h ++ [[]]) flavorFeatures = h.read flavorFeatures :=
    Heap.read_alloc_empty h flavorFeatures
  have hread : ∀ x, Heap.read (h ++ [x]) features = h.read features := fun x =>
    Heap.read_alloc_old h x features hover
  simp only [addCapabilities, Heap.alloc]
  rw [hbase, Heap.foldl_assign_last, hread, Heap.foldl_assign_last]

/-- The call of `addCapabilities` in the initialisation of `PxcCapabilities`: the new map
holds the entries of `mysql` followed by `xtradbCluster`. -/
theorem addCapabilities_pxc (g : Globals) :
    addCapabilities 0 3 [mysqlFeatureEntries g, [], [], pxcExtraEntries g] =
      (4, [mysqlFeatureEntries g, [], [], pxcExtraEntries g,
        mysqlFeatureEntries g ++ pxcExtraEntries g]) := by
  have hk₁ : (mapKeys ([] ++ mysqlFeatureEntries g)).Nodup := by
    have hkeys : mapKeys ([] ++ mysqlFeatureEntries g) =
        mapKeys (mysqlFeatureEntries sampleGlobals) := rfl
    rw [hkeys]
    decide
  have hk₂ : (mapKeys (mysqlFeatureEntries g ++ pxcExtraEntries g)).Nodup := by
    have hkeys : mapKeys (mysqlFeatureEntries g ++ pxcExtraEntries g) =
        mapKeys (mysqlFeatureEntries sampleGlobals ++ pxcExtraEntries sampleGlobals) := rfl
    rw [hkeys]
    decide
  have hadd := addCapabilities_eq 0 3
    [mysqlFeatureEntries g, [], [], pxcExtraEntries g] (by simp)
  have hr₀ : Heap.read [mysqlFeatureEntries g, [], [], pxcExtraEntries g] 0 =
      mysqlFeatureEntries g := rfl
  have hr₃ : Heap.read [mysqlFeatureEntries g, [], [], pxcExtraEntries g] 3 =
      pxcExtraEntries g := rfl
  rw [hr₀, hr₃, foldl_mapSet_fresh _ _ hk₁, List.nil_append,
    foldl_mapSet_fresh _ _ hk₂] at hadd
  exact hadd

/-- The heap after package initialisation, map by map: `mysql` and `percona` share the
map at address 0, `pxc` has its own map at address 4 with `xtradbCluster` added, and
`mariadb` has the map at address 5. -/
theorem initPackage_heap (g : Globals) :
    (initPackage g).heap = [mysqlFeatureEntries g, [], [], pxcExtraEntries g,
      mysqlFeatureEntries g ++ pxcExtraEntries g,
      [(InstallDb, ⟨"uses mysql_install_db", g.MinimumMySQLInstallDb, none⟩),
       (RootAuth, ⟨"Root Authentication during install", g.MinimumRootAuthVersion, none⟩),
       (DynVariables, ⟨"dynamic variables", g.MinimumDynVariablesVersion, none⟩),
       (SemiSynch, ⟨"semi-synchronous replication", g.MinimumSemiSyncVersion, none⟩)]] := by
  simp only [initPackage, Heap.alloc, List.length_nil, List.nil_append, List.length_cons,
    List.cons_append, List.length_singleton, Nat.reduceAdd, addCapabilities_pxc g]
  rfl

/-- The catalog after package initialisation, with the address of each feature list. -/
theorem initPackage_AllCapabilities (g : Globals) :
    (initPackage g).AllCapabilities = [
      (MySQLFlavor, ⟨MySQLFlavor, "MySQL server", 0⟩),
      (PerconaServerFlavor, ⟨PerconaServerFlavor, "Percona Server", 0⟩),
      (MariaDbFlavor, ⟨MariaDbFlavor, "", 5⟩),
      (TiDbFlavor, ⟨TiDbFlavor, "TiDB isolated server", 1⟩),
      (NDBFlavor, ⟨NDBFlavor, "MySQL NDB Cluster", 2⟩),
      (PxcFlavor, ⟨PxcFlavor, "Percona XtraDB Cluster", 4⟩)] := by
  simp only [initPackage, Heap.alloc, List.length_nil, List.nil_append, List.length_cons,
    List.cons_append, List.length_singleton, Nat.reduceAdd, addCapabilities_pxc g]

/-! ## `HasCapability` -/

/-- The scan answers from the entry stored under the flavor, when that flavor defines the
feature. -/
theorem scanCapabilities_defined (ops : VersionHelpers) (h : Heap) (versionList : IntSlice)
    (flavor feature : String) (all : MapObject Capabilities) (caps : Capabilities)
    (c : Capability) (hF : mapGet all flavor = some caps)
    (hf : mapGet (h.read caps.Features) feature = some c) :
    scanCapabilities ops h versionList flavor feature all =
      capabilityAnswer ops versionList c := by
  induction all with
  | nil => simp [mapGet] at hF
  | cons e rest ih =>
    obtain ⟨flavorName, capabilities⟩ := e
    by_cases hk : flavorName = flavor
    · simp only [mapGet, hk, if_true, Option.some.injEq] at hF
      subst hF
      simp [scanCapabilities, hk, hf]
    · simp only [mapGet, hk, if_false] at hF
      simp [scanCapabilities, hk, ih hF]

/-- The scan finds nothing when no entry stored under the flavor defines the feature. -/
theorem scanCapabilities_undefined (ops : VersionHelpers) (h : Heap)
    (versionList : IntSlice) (flavor feature : String) (all : MapObject Capabilities)
    (hnone : ∀ caps, (flavor, caps) ∈ all → mapGet (h.read caps.Features) feature = none) :
    scanCapabilities ops h versionList flavor feature all = (false, none) := by
  induction all with
  | nil => simp [scanCapabilities]
  | cons e rest ih =>
    obtain ⟨flavorName, capabilities⟩ := e
    have hrest := ih (fun caps hmem => hnone caps (List.mem_cons_of_mem _ hmem))
    by_cases hk : flavorName = flavor
    · subst hk
      have hhere := hnone capabilities (List.mem_cons_self _ _)
      simp [scanCapabilities, hhere, hrest]
    · simp [scanCapabilities, hk, hrest]

/-- The answer for a found feature never carries an error when the comparison never
fails. -/
theorem capabilityAnswer_no_error (ops : VersionHelpers) (versionList : IntSlice)
    (c : Capability)
    (hcmp : ∀ a b, (ops.GreaterOrEqualVersionList a b).2 = none) :
    (capabilityAnswer ops versionList c).2 = none := by
  unfold capabilityAnswer
  have h1 := hcmp versionList c.Since
  split
  · rename_i heq
    rw [heq] at h1
    simp at h1
  · split
    · rfl
    · rename_i u _
      have h2 := hcmp (some u) versionList
      split
      · rename_i heq
        rw [heq] at h2
        simp at h2
      · rfl

/-- The scan never reports an error when the comparison never fails. -/
theorem scanCapabilities_no_error (ops : VersionHelpers) (h : Heap) (versionList : IntSlice)
    (flavor feature : String) (all : MapObject Capabilities)
    (hcmp : ∀ a b, (ops.GreaterOrEqualVersionList a b).2 = none) :
    (scanCapabilities ops h versionList flavor feature all).2 = none := by
  induction all with
  | nil => simp [scanCapabilities]
  | cons e rest ih =>
    obtain ⟨flavorName, capabilities⟩ := e
    simp only [scanCapabilities]
    split
    · split
      · exact capabilityAnswer_no_error ops versionList _ hcmp
      · exact ih
    · exact ih

/-- Flavor names under which the initial catalog has an entry. -/
theorem mapKeys_initPackage (g : Globals) :
    mapKeys (initPackage g).AllCapabilities =
      [MySQLFlavor, PerconaServerFlavor, MariaDbFlavor, TiDbFlavor, NDBFlavor, PxcFlavor] :=
  rfl

/-- Reading a key from a map object does not depend on the order of its entries. -/
theorem mapGet_perm {V : Type} (m₁ m₂ : MapObject V) (k : String) (hperm : m₁.Perm m₂)
    (hm : (mapKeys m₁).Nodup) : mapGet m₁ k = mapGet m₂ k := by
  have hm₂ : (mapKeys m₂).Nodup := ((hperm.map Prod.fst).nodup_iff).1 hm
  cases hget : mapGet m₁ k with
  | none =>
    have hnot : k ∉ mapKeys m₂ := fun hmem =>
      (mapGet_eq_none_iff m₁ k).1 hget (((hperm.map Prod.fst).mem_iff).2 hmem)
    exact ((mapGet_eq_none_iff m₂ k).2 hnot).symm
  | some v =>
    exact (mapGet_of_mem m₂ k v hm₂ (hperm.mem_iff.1 (mem_of_mapGet m₁ k v hget))).symm

/-- Reading a key from two lists of entries, one after the other. -/
theorem mapGet_append {V : Type} (m₁ m₂ : MapObject V) (k : String) :
    mapGet (m₁ ++ m₂) k =
      (match mapGet m₁ k with
       | some v => some v
       | none => mapGet m₂ k) := by
  induction m₁ with
  | nil => simp [mapGet]
  | cons e rest ih =>
    obtain ⟨k', v'⟩ := e
    by_cases hk : k' = k
    · simp [mapGet, hk]
    · simp [mapGet, hk, ih]

/-- The scan of `HasCapability` is a lookup of the flavor followed by a lookup of the
feature, when the catalog holds every flavor once. -/
theorem scanCapabilities_eq_lookup (ops : VersionHelpers) (h : Heap)
    (versionList : IntSlice) (flavor feature : String) (all : MapObject Capabilities)
    (hk : (mapKeys all).Nodup) :
    scanCapabilities ops h versionList flavor feature all =
      (match mapGet all flavor with
       | none => (false, none)
       | some capabilities =>
         match mapGet (h.read capabilities.Features) feature with
         | none => (false, none)
         | some featureDefinition => capabilityAnswer ops versionList featureDefinition) := by
  cases hF : mapGet all flavor with
  | none =>
    apply scanCapabilities_undefined
    intro caps hmem
    exact absurd (List.mem_map_of_mem Prod.fst hmem) ((mapGet_eq_none_iff all flavor).1 hF)
  | some caps =>
    simp only
    cases hf : mapGet (h.read caps.Features) feature with
    | some c => exact scanCapabilities_defined ops h versionList flavor feature all caps c hF hf
    | none =>
      apply scanCapabilities_undefined
      intro caps' hmem
      have hcaps : caps' = caps := eq_of_mem_of_mapGet all flavor caps' caps hk hF hmem
      rw [hcaps]
      exact hf

/-- `HasCapability` coincides with the direct lookup when the catalog holds every flavor
once. -/
theorem HasCapability_eq_direct (ops : VersionHelpers) (p : Package)
    (flavor feature version : String) (hk : (mapKeys p.AllCapabilities).Nodup) :
    HasCapability ops p flavor feature version =
      HasCapabilityDirect ops p flavor feature version := by
  unfold HasCapability HasCapabilityDirect answerIn
  rcases hv : ops.VersionToList version with ⟨vl, _ | err⟩
  · simp only
    rw [scanCapabilities_eq_lookup ops p.heap vl flavor feature p.AllCapabilities hk]
  · cases mapGet p.AllCapabilities flavor <;> rfl

/-- The catalog after initialisation holds every flavor once. -/
theorem nodup_mapKeys_initPackage (g : Globals) :
    (mapKeys (initPackage g).AllCapabilities).Nodup := by
  rw [mapKeys_initPackage]
  decide

/-- For a package with the heap of the initialised one and the entries of its catalog in
any order, `HasCapability` is the answer computed from the feature list of the flavor. -/
theorem HasCapability_of_flavor (ops : VersionHelpers) (g : Globals) (p : Package)
    (hheap : p.heap = (initPackage g).heap)
    (hall : p.AllCapabilities.Perm (initPackage g).AllCapabilities)
    (flavor feature version : String) (caps : Capabilities)
    (hF : mapGet (initPackage g).AllCapabilities flavor = some caps) :
    HasCapability ops p flavor feature version =
      answerIn ops ((initPackage g).heap.read caps.Features) feature version := by
  have hk : (mapKeys p.AllCapabilities).Nodup :=
    ((hall.map Prod.fst).nodup_iff).2 (nodup_mapKeys_initPackage g)
  rw [HasCapability_eq_direct ops p flavor feature version hk]
  unfold HasCapabilityDirect
  rw [mapGet_perm p.AllCapabilities _ flavor hall hk, hF, hheap]

/-- Feature lists of the four flavors that have features, after initialisation. -/
theorem initPackage_features (g : Globals) :
    mapGet (initPackage g).AllCapabilities MySQLFlavor
        = some ⟨MySQLFlavor, "MySQL server", 0⟩ ∧
      mapGet (initPackage g).AllCapabilities PerconaServerFlavor
        = some ⟨PerconaServerFlavor, "Percona Server", 0⟩ ∧
      mapGet (initPackage g).AllCapabilities PxcFlavor
        = some ⟨PxcFlavor, "Percona XtraDB Cluster", 4⟩ ∧
      mapGet (initPackage g).AllCapabilities MariaDbFlavor
        = some ⟨MariaDbFlavor, "", 5⟩ := by
  rw [initPackage_AllCapabilities]
  decide

/-- Keys of the `mysql` feature list: `xtradbCluster` is not among them. -/
theorem xtradbCluster_not_mysql_key (g : Globals) :
    XtradbCluster ∉ mapKeys (mysqlFeatureEntries g) := by
  have hkeys : mapKeys (mysqlFeatureEntries g) = mapKeys (mysqlFeatureEntries sampleGlobals) :=
    rfl
  rw [hkeys]
  decide

/-- The package variables after initialisation: `percona` holds the address of the
`mysql` feature list, `pxc` and `mariadb` hold addresses of their own. -/
theorem initPackage_vars (g : Globals) :
    (initPackage g).MySQLCapabilities = ⟨MySQLFlavor, "MySQL server", 0⟩ ∧
      (initPackage g).PerconaCapabilities = ⟨PerconaServerFlavor, "Percona Server", 0⟩ ∧
      (initPackage g).PxcCapabilities = ⟨PxcFlavor, "Percona XtraDB Cluster", 4⟩ ∧
      (initPackage g).MariadbCapabilities = ⟨MariaDbFlavor, "", 5⟩ := by
  simp only [initPackage, Heap.alloc, List.length_nil, List.nil_append, List.length_cons,
    List.cons_append, List.length_singleton, Nat.reduceAdd, addCapabilities_pxc g,
    and_self]

/-- Contents of the `mysql` (and `percona`) feature list after initialisation. -/
theorem initPackage_read_mysql (g : Globals) :
    (initPackage g).heap.read 0 = mysqlFeatureEntries g := by
  rw [initPackage_heap]
  rfl

/-- Contents of the `pxc` feature list after initialisation. -/
theorem initPackage_read_pxc (g : Globals) :
    (initPackage g).heap.read 4 = mysqlFeatureEntries g ++ pxcExtraEntries g := by
  rw [initPackage_heap]
  rfl

/-- Contents of the `mariadb` feature list after initialisation. -/
theorem initPackage_read_mariadb (g : Globals) :
    (initPackage g).heap.read 5 =
      [(InstallDb, ⟨"uses mysql_install_db", g.MinimumMySQLInstallDb, none⟩),
       (RootAuth, ⟨"Root Authentication during install", g.MinimumRootAuthVersion, none⟩),
       (DynVariables, ⟨"dynamic variables", g.MinimumDynVariablesVersion, none⟩),
       (SemiSynch, ⟨"semi-synchronous replication", g.MinimumSemiSyncVersion, none⟩)] := by
  rw [initPackage_heap]
  rfl

/-- The `pxc` feature list reads as the `mysql` one on every key but `xtradbCluster`. -/
theorem mapGet_pxc_other (g : Globals) (f : String) (hf : f ≠ XtradbCluster) :
    mapGet ((initPackage g).heap.read 4) f = mapGet ((initPackage g).heap.read 0) f := by
  rw [initPackage_read_pxc, initPackage_read_mysql, mapGet_append]
  have hextra : mapGet (pxcExtraEntries g) f = none := by
    simp [pxcExtraEntries, mapGet, Ne.symm hf]
  rw [hextra]
  cases mapGet (mysqlFeatureEntries g) f <;> rfl

/-- The `pxc` feature list defines `xtradbCluster`. -/
theorem mapGet_pxc_xtradbCluster (g : Globals) :
    mapGet ((initPackage g).heap.read 4) XtradbCluster =
      some ⟨"Xtradb Cluster creation", g.MinimumXtradbClusterVersion, none⟩ := by
  rw [initPackage_read_pxc, mapGet_append,
    (mapGet_eq_none_iff _ _).2 (xtradbCluster_not_mysql_key g)]
  simp [pxcExtraEntries, mapGet]

/-- The answer for a feature that the feature list does not define, for a version that
parses. -/
theorem answerIn_undefined (ops : VersionHelpers) (features : MapObject Capability)
    (feature version : String) (vl : IntSlice)
    (hv : ops.VersionToList version = (vl, none))
    (hf : mapGet features feature = none) :
    answerIn ops features feature version = (false, none) := by
  unfold answerIn
  rw [hv]
  simp only [hf]

/-- The answer for a feature that the feature list defines, for a version that parses. -/
theorem answerIn_defined (ops : VersionHelpers) (features : MapObject Capability)
    (feature version : String) (vl : IntSlice) (c : Capability)
    (hv : ops.VersionToList version = (vl, none))
    (hf : mapGet features feature = some c) :
    answerIn ops features feature version = capabilityAnswer ops vl c := by
  unfold answerIn
  rw [hv]
  simp only [hf]

/-- The answer depends on the feature list only through the entry of the feature. -/
theorem answerIn_congr (ops : VersionHelpers) (m₁ m₂ : MapObject Capability)
    (feature version : String) (hf : mapGet m₁ feature = mapGet m₂ feature) :
    answerIn ops m₁ feature version = answerIn ops m₂ feature version := by
  unfold answerIn
  rw [hf]

/-- The `installdb` entry of `mariadb`: the lower bound of `mysql`, no upper bound. -/
theorem mapGet_mariadb_installdb (g : Globals) :
    mapGet ((initPackage g).heap.read 5) InstallDb =
      some ⟨"uses mysql_install_db", g.MinimumMySQLInstallDb, none⟩ := by
  rw [initPackage_read_mariadb]
  simp [mapGet]

/-- The `installdb` entry of `mysql`: both bounds. -/
theorem mapGet_mysql_installdb (g : Globals) :
    mapGet ((initPackage g).heap.read 0) InstallDb =
      some ⟨"uses mysql_install_db", g.MinimumMySQLInstallDb, g.MaximumMySQLInstallDb⟩ := by
  rw [initPackage_read_mysql]
  simp [mysqlFeatureEntries, mapGet]

/-- The `dynVars` and `semiSync` entries of `mariadb` are those of `mysql`. -/
theorem mapGet_mariadb_shared (g : Globals) :
    (mapGet ((initPackage g).heap.read 5) DynVariables =
        some ⟨"dynamic variables", g.MinimumDynVariablesVersion, none⟩ ∧
      mapGet ((initPackage g).heap.read 0) DynVariables =
        some ⟨"dynamic variables", g.MinimumDynVariablesVersion, none⟩) ∧
      (mapGet ((initPackage g).heap.read 5) SemiSynch =
        some ⟨"semi-synchronous replication", g.MinimumSemiSyncVersion, none⟩ ∧
      mapGet ((initPackage g).heap.read 0) SemiSynch =
        some ⟨"semi-synchronous replication", g.MinimumSemiSyncVersion, none⟩) := by
  have h₁ : InstallDb ≠ DynVariables := by decide
  have h₂ : RootAuth ≠ DynVariables := by decide
  have h₃ : InstallDb ≠ SemiSynch := by decide
  have h₄ : RootAuth ≠ SemiSynch := by decide
  have h₅ : DynVariables ≠ SemiSynch := by decide
  rw [initPackage_read_mariadb, initPackage_read_mysql]
  simp [mysqlFeatureEntries, mapGet, h₁, h₂, h₃, h₄, h₅]

/-- C1. A feature with only a `Since` bound: for a flavor `F` with entry `caps` in
`AllCapabilities`, a feature `f` defined for it with `Until == nil`, and a version string
that parses to `vl`, `HasCapability` returns the outcome `b` of
`GreaterOrEqualVersionList(vl, Since)` with no error: `true` when the version is at least
`Since`, `false` when it is below. -/
theorem HasCapability_since_only (ops : VersionHelpers) (p : Package)
    (F f v : String) (caps : Capabilities) (c : Capability) (vl : IntSlice) (b : Bool)
    (hF : mapGet p.AllCapabilities F = some caps)
    (hf : mapGet (p.heap.read caps.Features) f = some c)
    (hU : c.Until = none)
    (hv : ops.VersionToList v = (vl, none))
    (hb : ops.GreaterOrEqualVersionList vl c.Since = (b, none)) :
    HasCapability ops p F f v = (b, none) := by
  unfold HasCapability
  rw [hv]
  simp only
  rw [scanCapabilities_defined ops p.heap vl F f p.AllCapabilities caps c hF hf]
  unfold capabilityAnswer
  rw [hb, hU]
  simp

/-- Witness of C1: `dynVars` for `mysql`, on both sides of its `Since` bound. -/
theorem HasCapability_since_only_witness :
    HasCapability specHelpers (initPackage sampleGlobals) MySQLFlavor DynVariables "5.1.0"
        = (true, none) ∧
      HasCapability specHelpers (initPackage sampleGlobals) MySQLFlavor DynVariables "5.0.96"
        = (false, none) :=
  ⟨HasCapability_since_only specHelpers (initPackage sampleGlobals) MySQLFlavor DynVariables
      "5.1.0" ⟨MySQLFlavor, "MySQL server", 0⟩
      ⟨"dynamic variables", some [5, 1, 0], none⟩ (some [5, 1, 0]) true
      (by decide) (by decide) rfl (by decide) (by decide),
   HasCapability_since_only specHelpers (initPackage sampleGlobals) MySQLFlavor DynVariables
      "5.0.96" ⟨MySQLFlavor, "MySQL server", 0⟩
      ⟨"dynamic variables", some [5, 1, 0], none⟩ (some [5, 0, 96]) false
      (by decide) (by decide) rfl (by decide) (by decide)⟩

/-- C2. A feature with both bounds: for a flavor `F` with entry `caps`, a feature `f`
defined for it with `Until` present, and a version string that parses to `vl`,
`HasCapability` returns `(true, nil)` exactly when `vl` is at least `Since` and `Until` is
at least `vl`; when both comparisons succeed the answer is their conjunction with no
error.  Both ends are inside: at `vl = Since` and at `vl = Until` the answer is true, as
long as the comparison holds between a version and itself and `Since` is not above
`Until`. -/
theorem HasCapability_since_until (ops : VersionHelpers) (p : Package)
    (F f v : String) (caps : Capabilities) (c : Capability) (u : List Int) (vl : IntSlice)
    (hF : mapGet p.AllCapabilities F = some caps)
    (hf : mapGet (p.heap.read caps.Features) f = some c)
    (hU : c.Until = some u)
    (hv : ops.VersionToList v = (vl, none)) :
    (HasCapability ops p F f v = (true, none) ↔
        ops.GreaterOrEqualVersionList vl c.Since = (true, none) ∧
          ops.GreaterOrEqualVersionList (some u) vl = (true, none)) ∧
      (∀ b₁ b₂, ops.GreaterOrEqualVersionList vl c.Since = (b₁, none) →
        ops.GreaterOrEqualVersionList (some u) vl = (b₂, none) →
        HasCapability ops p F f v = (b₁ && b₂, none)) ∧
      (vl = c.Since →
        ops.GreaterOrEqualVersionList c.Since c.Since = (true, none) →
        ops.GreaterOrEqualVersionList (some u) c.Since = (true, none) →
        HasCapability ops p F f v = (true, none)) ∧
      (vl = some u →
        ops.GreaterOrEqualVersionList (some u) c.Since = (true, none) →
        ops.GreaterOrEqualVersionList (some u) (some u) = (true, none) →
        HasCapability ops p F f v = (true, none)) := by
  have hrun : HasCapability ops p F f v = capabilityAnswer ops vl c := by
    unfold HasCapability
    rw [hv]
    simp only
    exact scanCapabilities_defined ops p.heap vl F f p.AllCapabilities caps c hF hf
  have hboth : ∀ b₁ b₂, ops.GreaterOrEqualVersionList vl c.Since = (b₁, none) →
      ops.GreaterOrEqualVersionList (some u) vl = (b₂, none) →
      HasCapability ops p F f v = (b₁ && b₂, none) := by
    intro b₁ b₂ h₁ h₂
    rw [hrun]
    unfold capabilityAnswer
    rw [h₁, hU]
    simp only
    rw [h₂]
  refine ⟨⟨?_, ?_⟩, hboth, ?_, ?_⟩
  · intro htrue
    rw [hrun] at htrue
    unfold capabilityAnswer at htrue
    rw [hU] at htrue
    rcases h₁ : ops.GreaterOrEqualVersionList vl c.Since with ⟨b₁, _ | e₁⟩
    · rw [h₁] at htrue
      simp only at htrue
      rcases h₂ : ops.GreaterOrEqualVersionList (some u) vl with ⟨b₂, _ | e₂⟩
      · rw [h₂] at htrue
        simp only [Prod.mk.injEq, Bool.and_eq_true, and_true] at htrue
        simp [htrue.1, htrue.2]
      · rw [h₂] at htrue
        simp at htrue
    · rw [h₁] at htrue
      simp at htrue
  · rintro ⟨h₁, h₂⟩
    simpa using hboth true true h₁ h₂
  · intro hvl hrefl hle
    subst hvl
    simpa using hboth true true hrefl hle
  · intro hvl hle hrefl
    subst hvl
    simpa using hboth true true hle hrefl

/-- Witness of C2: `installdb` for `mysql` is supported at its `Since`, at its `Until`,
and not above `Until`. -/
theorem HasCapability_since_until_witness :
    HasCapability specHelpers (initPackage sampleGlobals) MySQLFlavor InstallDb "3.3.23"
        = (true, none) ∧
      HasCapability specHelpers (initPackage sampleGlobals) MySQLFlavor InstallDb "5.6.999"
        = (true, none) ∧
      HasCapability specHelpers (initPackage sampleGlobals) MySQLFlavor InstallDb "5.7.0"
        = (false, none) :=
  ⟨(HasCapability_since_until specHelpers (initPackage sampleGlobals) MySQLFlavor InstallDb
      "3.3.23" ⟨MySQLFlavor, "MySQL server", 0⟩
      ⟨"uses mysql_install_db", some [3, 3, 23], some [5, 6, 999]⟩ [5, 6, 999]
      (some [3, 3, 23]) (by decide) (by decide) rfl (by decide)).2.2.1
      rfl (by decide) (by decide),
   (HasCapability_since_until specHelpers (initPackage sampleGlobals) MySQLFlavor InstallDb
      "5.6.999" ⟨MySQLFlavor, "MySQL server", 0⟩
      ⟨"uses mysql_install_db", some [3, 3, 23], some [5, 6, 999]⟩ [5, 6, 999]
      (some [5, 6, 999]) (by decide) (by decide) rfl (by decide)).2.2.2
      rfl (by decide) (by decide),
   (HasCapability_since_until specHelpers (initPackage sampleGlobals) MySQLFlavor InstallDb
      "5.7.0" ⟨MySQLFlavor, "MySQL server", 0⟩
      ⟨"uses mysql_install_db", some [3, 3, 23], some [5, 6, 999]⟩ [5, 6, 999]
      (some [5, 7, 0]) (by decide) (by decide) rfl (by decide)).2.1
      true false (by decide) (by decide)⟩

/-- C3, as stated, fails: `rootAuth` is not defined for `mysql`, yet with the version
string `abc`, which does not parse, `HasCapability` returns an error. -/
theorem HasCapability_undefined_feature_unparsed :
    mapGet ((initPackage sampleGlobals).heap.read
        (initPackage sampleGlobals).MySQLCapabilities.Features) RootAuth = none ∧
      mapGet (initPackage sampleGlobals).AllCapabilities MySQLFlavor
        = some (initPackage sampleGlobals).MySQLCapabilities ∧
      HasCapability specHelpers (initPackage sampleGlobals) MySQLFlavor RootAuth "abc"
        = (false, some "VersionParseError") ∧
      HasCapability specHelpers (initPackage sampleGlobals) MySQLFlavor RootAuth "abc"
        ≠ (false, none) := by
  decide

/-- C3, amended. When no entry of `AllCapabilities` under the flavor `F` defines the
feature `f`, then for every version string that parses `HasCapability` returns
`(false, nil)`. -/
theorem HasCapability_undefined_feature (ops : VersionHelpers) (p : Package)
    (F f v : String) (vl : IntSlice)
    (hundef : ∀ caps, (F, caps) ∈ p.AllCapabilities →
      mapGet (p.heap.read caps.Features) f = none)
    (hv : ops.VersionToList v = (vl, none)) :
    HasCapability ops p F f v = (false, none) := by
  unfold HasCapability
  rw [hv]
  simp only
  exact scanCapabilities_undefined ops p.heap vl F f p.AllCapabilities hundef

/-- Witness of C3, amended: `rootAuth` is not defined for `mysql`. -/
theorem HasCapability_undefined_feature_witness :
    HasCapability specHelpers (initPackage sampleGlobals) MySQLFlavor RootAuth "10.4.3"
      = (false, none) :=
  HasCapability_undefined_feature specHelpers (initPackage sampleGlobals) MySQLFlavor
    RootAuth "10.4.3" (some [10, 4, 3])
    (fun caps hmem => by
      have hcaps : caps = ⟨MySQLFlavor, "MySQL server", 0⟩ :=
        eq_of_mem_of_mapGet (initPackage sampleGlobals).AllCapabilities MySQLFlavor caps _
          (by decide) (by decide) hmem
      subst hcaps
      decide)
    (by decide)

/-- C4. For a package whose `AllCapabilities` holds the entries of the initial catalog, in
any order of visit, a flavor other than `mysql`, `percona`, `mariadb`, `tidb`, `ndb` and
`pxc`, any feature name and any version string that parses: `HasCapability` returns
`(false, nil)`. -/
theorem HasCapability_unknown_flavor (ops : VersionHelpers) (g : Globals) (p : Package)
    (F f v : String) (vl : IntSlice)
    (hp : p.AllCapabilities.Perm (initPackage g).AllCapabilities)
    (hF : F ∉ [MySQLFlavor, PerconaServerFlavor, MariaDbFlavor, TiDbFlavor, NDBFlavor,
      PxcFlavor])
    (hv : ops.VersionToList v = (vl, none)) :
    HasCapability ops p F f v = (false, none) := by
  unfold HasCapability
  rw [hv]
  simp only
  apply scanCapabilities_undefined
  intro caps hmem
  exfalso
  apply hF
  rw [← mapKeys_initPackage g]
  exact List.mem_map_of_mem Prod.fst (hp.mem_iff.1 hmem)

/-- Witness of C4: the flavor `oracle` is not in the catalog. -/
theorem HasCapability_unknown_flavor_witness :
    HasCapability specHelpers (initPackage sampleGlobals) "oracle" InstallDb "5.5.0"
      = (false, none) :=
  HasCapability_unknown_flavor specHelpers sampleGlobals (initPackage sampleGlobals)
    "oracle" InstallDb "5.5.0" (some [5, 5, 0]) (List.Perm.refl _) (by decide) (by decide)

/-- C5. When `VersionToList` fails on the version string, `HasCapability` returns `false`
with that error, whatever the flavor, the feature and the package variables hold. -/
theorem HasCapability_parse_error (ops : VersionHelpers) (p : Package)
    (flavor feature version : String) (vl : IntSlice) (err : GoError)
    (hv : ops.VersionToList version = (vl, some err)) :
    HasCapability ops p flavor feature version = (false, some err) := by
  unfold HasCapability
  rw [hv]

/-- Witness of C5: the version string `8.x.1` does not parse. -/
theorem HasCapability_parse_error_witness :
    HasCapability specHelpers (initPackage sampleGlobals) MySQLFlavor InstallDb "8.x.1"
      = (false, some "VersionParseError") :=
  HasCapability_parse_error specHelpers (initPackage sampleGlobals) MySQLFlavor InstallDb
    "8.x.1" none "VersionParseError" (by decide)

/-- C6. With the comparison of the specification, which is a total boolean function,
`HasCapability` fails only with a parse error: for every package, flavor and feature, a
version string that parses yields a boolean with no error, and any error returned is the
error of `VersionToList` on the version string. -/
theorem HasCapability_fails_only_on_parse (parse : String → IntSlice × Option GoError)
    (p : Package) (flavor feature version : String) :
    (∀ vl, parse version = (vl, none) →
        ∃ b, HasCapability ⟨parse, specGreaterOrEqualVersionList⟩ p flavor feature version
          = (b, none)) ∧
      (∀ err, (HasCapability ⟨parse, specGreaterOrEqualVersionList⟩ p flavor feature
          version).2 = some err → (parse version).2 = some err) := by
  have hcmp : ∀ a b, ((⟨parse, specGreaterOrEqualVersionList⟩ :
      VersionHelpers).GreaterOrEqualVersionList a b).2 = none := fun _ _ => rfl
  constructor
  · intro vl hv
    refine ⟨(scanCapabilities ⟨parse, specGreaterOrEqualVersionList⟩ p.heap vl flavor
      feature p.AllCapabilities).1, ?_⟩
    have hno := scanCapabilities_no_error ⟨parse, specGreaterOrEqualVersionList⟩ p.heap vl
      flavor feature p.AllCapabilities hcmp
    unfold HasCapability
    simp only [hv]
    exact Prod.ext rfl hno
  · intro err herr
    unfold HasCapability at herr
    rcases hv : parse version with ⟨vl, _ | e⟩
    · simp only [hv] at herr
      rw [scanCapabilities_no_error ⟨parse, specGreaterOrEqualVersionList⟩ p.heap vl
        flavor feature p.AllCapabilities hcmp] at herr
      cases herr
    · simp only [hv] at herr
      simpa using herr

/-- Witness of C6: a query on the initial catalog with a version that parses, and one with
a version that does not. -/
theorem HasCapability_fails_only_on_parse_witness :
    (∃ b, HasCapability ⟨specVersionToList, specGreaterOrEqualVersionList⟩
        (initPackage sampleGlobals) MySQLFlavor InstallDb "5.7.30" = (b, none)) ∧
      (specVersionToList "5.x").2 = some "VersionParseError" :=
  ⟨(HasCapability_fails_only_on_parse specVersionToList (initPackage sampleGlobals)
      MySQLFlavor InstallDb "5.7.30").1 (some [5, 7, 30]) (by decide),
   (HasCapability_fails_only_on_parse specVersionToList (initPackage sampleGlobals)
      MySQLFlavor InstallDb "5.x").2 "VersionParseError" (by decide)⟩

/-! ## `addCapabilities` and `copyCapabilities` -/

/-- C7. For two feature lists of the heap, each holding every key once, the list that
`addCapabilities(base, overrides)` returns has as keys the keys of `base` together with
the keys of `overrides`; every key of `overrides` is mapped to the entry `overrides` has
for it; every key that `overrides` does not have is mapped as in `base`; and every key
occurs once. -/
theorem addCapabilities_union (h : Heap) (base overrides : FeatureList)
    (hover : overrides < h.length)
    (hbaseKeys : (mapKeys (h.read base)).Nodup)
    (hoverKeys : (mapKeys (h.read overrides)).Nodup) :
    (∀ k, k ∈ mapKeys (addCapabilitiesResult base overrides h) ↔
        k ∈ mapKeys (h.read base) ∨ k ∈ mapKeys (h.read overrides)) ∧
      (∀ k c, mapGet (h.read overrides) k = some c →
        mapGet (addCapabilitiesResult base overrides h) k = some c) ∧
      (∀ k, k ∉ mapKeys (h.read overrides) →
        mapGet (addCapabilitiesResult base overrides h) k = mapGet (h.read base) k) ∧
      (mapKeys (addCapabilitiesResult base overrides h)).Nodup := by
  obtain ⟨hfst, _, _, hnew⟩ := addCapabilities_heap base overrides h hover
  have hres : addCapabilitiesResult base overrides h =
      (h.read overrides).foldl (fun acc e => mapSet acc e.1 e.2)
        ((h.read base).foldl (fun acc e => mapSet acc e.1 e.2) []) := by
    unfold addCapabilitiesResult
    rw [hfst, hnew]
  rw [hres]
  refine ⟨?_, ?_, ?_, ?_⟩
  · intro k
    rw [mem_mapKeys_foldl_mapSet, mem_mapKeys_foldl_mapSet]
    simp only [mapKeys, List.map_nil, List.not_mem_nil, or_false]
    tauto
  · intro k c hk
    rw [mapGet_foldl_mapSet _ _ _ hoverKeys, hk]
  · intro k hk
    have hnone : mapGet (h.read overrides) k = none := (mapGet_eq_none_iff _ k).2 hk
    rw [mapGet_foldl_mapSet _ _ _ hoverKeys, hnone]
    simp only
    rw [mapGet_foldl_mapSet _ _ _ hbaseKeys]
    cases mapGet (h.read base) k <;> simp [mapGet]
  · apply nodup_foldl_mapSet
    apply nodup_foldl_mapSet
    simp [mapKeys]

/-- Witness of C7: on `sampleHeap`, `dynVars` is replaced, `xtradbCluster` is added and
`installdb` is kept. -/
theorem addCapabilities_union_witness :
    mapGet (addCapabilitiesResult 0 1 sampleHeap) DynVariables
        = some ⟨"dynamic variables, redefined", some [5, 5, 0], none⟩ ∧
      mapGet (addCapabilitiesResult 0 1 sampleHeap) XtradbCluster
        = some ⟨"Xtradb Cluster creation", some [5, 6, 14], none⟩ ∧
      mapGet (addCapabilitiesResult 0 1 sampleHeap) InstallDb
        = mapGet (sampleHeap.read 0) InstallDb :=
  ⟨(addCapabilities_union sampleHeap 0 1 (by decide) (by decide) (by decide)).2.1
      DynVariables _ (by decide),
   (addCapabilities_union sampleHeap 0 1 (by decide) (by decide) (by decide)).2.1
      XtradbCluster _ (by decide),
   (addCapabilities_union sampleHeap 0 1 (by decide) (by decide) (by decide)).2.2.1
      InstallDb (by decide)⟩

/-- C8. `addCapabilities(base, overrides)` on two feature lists of the heap leaves both
as they were, as it does every map that existed before the call; the list it returns is
at an address that was not allocated before, so it is neither `base` nor `overrides`. -/
theorem addCapabilities_frame (h : Heap) (base overrides : FeatureList)
    (hbase : base < h.length) (hover : overrides < h.length) :
    (addCapabilities base overrides h).2.read base = h.read base ∧
      (addCapabilities base overrides h).2.read overrides = h.read overrides ∧
      (∀ r, r < h.length → (addCapabilities base overrides h).2.read r = h.read r) ∧
      ¬ (addCapabilities base overrides h).1 < h.length ∧
      (addCapabilities base overrides h).1 < (addCapabilities base overrides h).2.length ∧
      (addCapabilities base overrides h).1 ≠ base ∧
      (addCapabilities base overrides h).1 ≠ overrides := by
  obtain ⟨hfst, hlen, hold, _⟩ := addCapabilities_heap base overrides h hover
  refine ⟨hold base hbase, hold overrides hover, hold, ?_, ?_, ?_, ?_⟩
  · rw [hfst]
    exact Nat.lt_irrefl _
  · rw [hfst, hlen]
    exact Nat.lt_succ_self _
  · rw [hfst]
    exact Nat.ne_of_gt hbase
  · rw [hfst]
    exact Nat.ne_of_gt hover

/-- Witness of C8: on `sampleHeap` the two lists read as before and the result is the new
address 2. -/
theorem addCapabilities_frame_witness :
    (addCapabilities 0 1 sampleHeap).2.read 0 = sampleHeap.read 0 ∧
      (addCapabilities 0 1 sampleHeap).2.read 1 = sampleHeap.read 1 ∧
      (addCapabilities 0 1 sampleHeap).1 ≠ 0 ∧
      (addCapabilities 0 1 sampleHeap).1 ≠ 1 :=
  ⟨(addCapabilities_frame sampleHeap 0 1 (by decide) (by decide)).1,
   (addCapabilities_frame sampleHeap 0 1 (by decide) (by decide)).2.1,
   (addCapabilities_frame sampleHeap 0 1 (by decide) (by decide)).2.2.2.2.2.1,
   (addCapabilities_frame sampleHeap 0 1 (by decide) (by decide)).2.2.2.2.2.2⟩

/-- C9. `copyCapabilities(flavor, names)`: when `AllCapabilities` has an entry for the
flavor, whose feature list holds every key once, the list returned maps each name of
`names` as the flavor's feature list does and has no other key, so its keys are the names
that the flavor defines, each once; when `AllCapabilities` has no entry for the flavor the
list returned is empty.  Duplicate and unknown names change nothing. -/
theorem copyCapabilities_subset (p : Package) (flavor : String) (names : List String) :
    (∀ caps, mapGet p.AllCapabilities flavor = some caps →
        (mapKeys (p.heap.read caps.Features)).Nodup →
        (∀ n, mapGet (copyCapabilitiesResult p flavor names) n =
            if n ∈ names then mapGet (p.heap.read caps.Features) n else none) ∧
          (∀ n, n ∈ mapKeys (copyCapabilitiesResult p flavor names) ↔
            n ∈ names ∧ n ∈ mapKeys (p.heap.read caps.Features)) ∧
          (mapKeys (copyCapabilitiesResult p flavor names)).Nodup) ∧
      (mapGet p.AllCapabilities flavor = none →
        copyCapabilitiesResult p flavor names = []) := by
  constructor
  · intro caps hF hkeys
    obtain ⟨hfst, _, hnew⟩ := copyCapabilities_heap p flavor names caps hF
    have hres : copyCapabilitiesResult p flavor names =
        (p.heap.read caps.Features).foldl (copyEntry names) [] := by
      unfold copyCapabilitiesResult
      rw [hfst, hnew]
    have hget : ∀ n, mapGet (copyCapabilitiesResult p flavor names) n =
        if n ∈ names then mapGet (p.heap.read caps.Features) n else none := by
      intro n
      rw [hres, mapGet_foldl_copyEntry names _ [] n hkeys]
      by_cases hn : n ∈ names
      · simp only [hn, if_true]
        cases mapGet (p.heap.read caps.Features) n <;> simp [mapGet]
      · simp [hn, mapGet]
    refine ⟨hget, ?_, ?_⟩
    · intro n
      have hiff := mapGet_eq_none_iff (copyCapabilitiesResult p flavor names) n
      have hiff' := mapGet_eq_none_iff (p.heap.read caps.Features) n
      rw [hget n] at hiff
      by_cases hn : n ∈ names
      · simp only [hn, if_true, true_and] at hiff ⊢
        rw [hiff'] at hiff
        exact not_iff_not.1 hiff.symm
      · simp only [hn, if_false, true_iff, false_and, iff_false] at hiff ⊢
        exact hiff
    · rw [hres]
      apply nodup_foldl_copyEntry
      simp [mapKeys]
  · intro hF
    have hnew := Heap.read_alloc_new p.heap []
    unfold copyCapabilitiesResult
    simp only [copyCapabilities, hF]
    exact hnew

/-- Witness of C9: from `mysql`, the names `GTID`, `zzz`, `GTID`, `roles` give a list
with the entries of `GTID` and `roles`, and nothing for `zzz` or `installdb`; from the
unknown flavor `oracle` they give the empty list. -/
theorem copyCapabilities_subset_witness :
    (mapGet (copyCapabilitiesResult (initPackage sampleGlobals) MySQLFlavor
        [GTID, "zzz", GTID, Roles]) GTID
        = some ⟨"Global transaction identifiers", some [5, 6, 9], none⟩ ∧
      mapGet (copyCapabilitiesResult (initPackage sampleGlobals) MySQLFlavor
        [GTID, "zzz", GTID, Roles]) "zzz" = none ∧
      mapGet (copyCapabilitiesResult (initPackage sampleGlobals) MySQLFlavor
        [GTID, "zzz", GTID, Roles]) InstallDb = none) ∧
      copyCapabilitiesResult (initPackage sampleGlobals) "oracle"
        [GTID, "zzz", GTID, Roles] = [] :=
  ⟨⟨(((copyCapabilities_subset (initPackage sampleGlobals) MySQLFlavor
        [GTID, "zzz", GTID, Roles]).1 ⟨MySQLFlavor, "MySQL server", 0⟩
        (by decide) (by decide)).1 GTID).trans (by decide),
    (((copyCapabilities_subset (initPackage sampleGlobals) MySQLFlavor
        [GTID, "zzz", GTID, Roles]).1 ⟨MySQLFlavor, "MySQL server", 0⟩
        (by decide) (by decide)).1 "zzz").trans (by decide),
    (((copyCapabilities_subset (initPackage sampleGlobals) MySQLFlavor
        [GTID, "zzz", GTID, Roles]).1 ⟨MySQLFlavor, "MySQL server", 0⟩
        (by decide) (by decide)).1 InstallDb).trans (by decide)⟩,
   (copyCapabilities_subset (initPackage sampleGlobals) "oracle"
      [GTID, "zzz", GTID, Roles]).2 (by decide)⟩

/-! ## Flavor detection -/

/-- C10. First-match detection over `FlavorCompositionList` returns `pxc` on a directory
that holds only `bin/garbd`, `lib/libgalera_smm.so` and `lib/libperconaserverclient.so`;
and for every set of existing files, if all elements of an indicator of flavor `pxc` exist
then detection returns `pxc`, whatever else exists. -/
theorem detectFlavor_pxc_first :
    detectFlavor (directoryOf [⟨"bin", "garbd"⟩, ⟨"lib", "libgalera_smm.so"⟩,
        ⟨"lib", "libperconaserverclient.so"⟩]) FlavorCompositionList = PxcFlavor ∧
      PxcFlavor ≠ PerconaServerFlavor ∧
      ∀ (fileExists : ElementPath → Bool) (fi : FlavorIndicator),
        fi ∈ FlavorCompositionList → fi.flavor = PxcFlavor →
        (∀ e, e ∈ fi.elements → fileExists e = true) →
        detectFlavor fileExists FlavorCompositionList = PxcFlavor := by
  refine ⟨by decide, by decide, ?_⟩
  intro fileExists fi hmem hflavor hall
  simp only [FlavorCompositionList, List.mem_cons, List.mem_singleton, List.not_mem_nil,
    or_false] at hmem
  rcases hmem with rfl | rfl | rfl | rfl | rfl | rfl | rfl
  · simp only [List.mem_cons, List.mem_singleton, List.not_mem_nil, or_false,
      forall_eq_or_imp, forall_eq] at hall
    simp [detectFlavor, FlavorCompositionList, indicatorMatches, hall]
  · simp only [List.mem_cons, List.mem_singleton, List.not_mem_nil, or_false,
      forall_eq_or_imp, forall_eq] at hall
    simp [detectFlavor, FlavorCompositionList, indicatorMatches, hall]
  · simp only [List.mem_cons, List.mem_singleton, List.not_mem_nil, or_false,
      forall_eq_or_imp, forall_eq] at hall
    simp [detectFlavor, FlavorCompositionList, indicatorMatches, hall]
  · exact absurd hflavor (by decide)
  · exact absurd hflavor (by decide)
  · exact absurd hflavor (by decide)
  · exact absurd hflavor (by decide)

/-- Witness of C10: a directory in which every file exists, so that every indicator
matches, is detected as `pxc` through the second indicator. -/
theorem detectFlavor_pxc_first_witness :
    detectFlavor (fun _ => true) FlavorCompositionList = PxcFlavor :=
  detectFlavor_pxc_first.2.2 (fun _ => true)
    { AllNeeded := true,
      elements := [⟨"bin", "garbd"⟩, ⟨"lib", "libgalera_smm.a"⟩,
        ⟨"lib", "libperconaserverclient.a"⟩],
      flavor := PxcFlavor }
    (by decide) rfl (fun _ _ => rfl)

/-! ## The catalog: derived flavors -/

/-- C14. For a package with the heap of the initialised one and the entries of its
catalog in any order: `percona` answers every query as `mysql` does, in boolean and error;
`pxc` answers every query on a feature other than `xtradbCluster` as `percona` does; and
`pxc` defines `xtradbCluster` with `Since = MinimumXtradbClusterVersion` and no `Until`. -/
theorem HasCapability_percona_pxc (ops : VersionHelpers) (g : Globals) (p : Package)
    (hheap : p.heap = (initPackage g).heap)
    (hall : p.AllCapabilities.Perm (initPackage g).AllCapabilities) :
    (∀ f v, HasCapability ops p PerconaServerFlavor f v = HasCapability ops p MySQLFlavor f v) ∧
      (∀ f v, f ≠ XtradbCluster →
        HasCapability ops p PxcFlavor f v = HasCapability ops p PerconaServerFlavor f v) ∧
      (∃ caps, mapGet p.AllCapabilities PxcFlavor = some caps ∧
        mapGet (p.heap.read caps.Features) XtradbCluster =
          some ⟨"Xtradb Cluster creation", g.MinimumXtradbClusterVersion, none⟩) := by
  obtain ⟨hmy, hpe, hpx, _⟩ := initPackage_features g
  have hk : (mapKeys p.AllCapabilities).Nodup :=
    ((hall.map Prod.fst).nodup_iff).2 (nodup_mapKeys_initPackage g)
  refine ⟨?_, ?_, ?_⟩
  · intro f v
    rw [HasCapability_of_flavor ops g p hheap hall _ f v _ hpe,
      HasCapability_of_flavor ops g p hheap hall _ f v _ hmy]
  · intro f v hf
    rw [HasCapability_of_flavor ops g p hheap hall _ f v _ hpx,
      HasCapability_of_flavor ops g p hheap hall _ f v _ hpe]
    exact answerIn_congr ops _ _ f v (mapGet_pxc_other g f hf)
  · refine ⟨⟨PxcFlavor, "Percona XtraDB Cluster", 4⟩, ?_, ?_⟩
    · rw [mapGet_perm p.AllCapabilities _ PxcFlavor hall hk]
      exact hpx
    · rw [hheap]
      exact mapGet_pxc_xtradbCluster g

/-- Witness of C14: on the initialised package, `percona` and `mysql` agree on `GTID` at
5.6.9, and `pxc` and `percona` agree on `installdb` at 5.7.0. -/
theorem HasCapability_percona_pxc_witness :
    HasCapability specHelpers (initPackage sampleGlobals) PerconaServerFlavor GTID "5.6.9"
        = HasCapability specHelpers (initPackage sampleGlobals) MySQLFlavor GTID "5.6.9" ∧
      HasCapability specHelpers (initPackage sampleGlobals) PxcFlavor InstallDb "5.7.0"
        = HasCapability specHelpers (initPackage sampleGlobals) PerconaServerFlavor
            InstallDb "5.7.0" :=
  ⟨(HasCapability_percona_pxc specHelpers sampleGlobals (initPackage sampleGlobals) rfl
      (List.Perm.refl _)).1 GTID "5.6.9",
   (HasCapability_percona_pxc specHelpers sampleGlobals (initPackage sampleGlobals) rfl
      (List.Perm.refl _)).2.1 InstallDb "5.7.0" (by decide)⟩

/-- C15. Building the `pxc` feature list leaves the list it starts from as it was: after
initialisation `percona` holds the very feature list of `mysql`, `xtradbCluster` is not a
key of it while it is a key of the `pxc` list, and for a package with that heap and the
entries of the catalog in any order `HasCapability` returns `(false, nil)` for
`xtradbCluster` on `mysql` and on `percona`, for every version string that parses. -/
theorem xtradbCluster_not_leaked (ops : VersionHelpers) (g : Globals) (p : Package)
    (hheap : p.heap = (initPackage g).heap)
    (hall : p.AllCapabilities.Perm (initPackage g).AllCapabilities) :
    (initPackage g).PerconaCapabilities.Features
        = (initPackage g).MySQLCapabilities.Features ∧
      XtradbCluster ∉
        mapKeys ((initPackage g).heap.read (initPackage g).MySQLCapabilities.Features) ∧
      XtradbCluster ∈
        mapKeys ((initPackage g).heap.read (initPackage g).PxcCapabilities.Features) ∧
      (∀ v vl, ops.VersionToList v = (vl, none) →
        HasCapability ops p MySQLFlavor XtradbCluster v = (false, none) ∧
          HasCapability ops p PerconaServerFlavor XtradbCluster v = (false, none)) := by
  obtain ⟨hmy, hpe, _, _⟩ := initPackage_features g
  obtain ⟨hvmy, hvpe, hvpx, _⟩ := initPackage_vars g
  have hnot : XtradbCluster ∉ mapKeys ((initPackage g).heap.read 0) := by
    rw [initPackage_read_mysql]
    exact xtradbCluster_not_mysql_key g
  refine ⟨?_, ?_, ?_, ?_⟩
  · rw [hvmy, hvpe]
  · rw [hvmy]
    exact hnot
  · rw [hvpx]
    by_contra habs
    have hnone := (mapGet_eq_none_iff _ _).2 habs
    rw [mapGet_pxc_xtradbCluster g] at hnone
    cases hnone
  · intro v vl hv
    have hnone := (mapGet_eq_none_iff _ _).2 hnot
    constructor
    · rw [HasCapability_of_flavor ops g p hheap hall _ XtradbCluster v _ hmy]
      exact answerIn_undefined ops _ XtradbCluster v vl hv hnone
    · rw [HasCapability_of_flavor ops g p hheap hall _ XtradbCluster v _ hpe]
      exact answerIn_undefined ops _ XtradbCluster v vl hv hnone

/-- Witness of C15: `xtradbCluster` at 5.7.30 is supported by `pxc` only. -/
theorem xtradbCluster_not_leaked_witness :
    (HasCapability specHelpers (initPackage sampleGlobals) MySQLFlavor XtradbCluster "5.7.30"
        = (false, none) ∧
      HasCapability specHelpers (initPackage sampleGlobals) PerconaServerFlavor
        XtradbCluster "5.7.30" = (false, none)) ∧
      HasCapability specHelpers (initPackage sampleGlobals) PxcFlavor XtradbCluster "5.7.30"
        = (true, none) :=
  ⟨(xtradbCluster_not_leaked specHelpers sampleGlobals (initPackage sampleGlobals) rfl
      (List.Perm.refl _)).2.2.2 "5.7.30" (some [5, 7, 30]) (by decide), by decide⟩

/-- C16. When the catalog holds every flavor once, `HasCapability` returns what the direct
lookup of the flavor, then of the feature, returns; and a package with the same heap whose
catalog holds the same entries in another order gives the same boolean and error. -/
theorem HasCapability_order_independent (ops : VersionHelpers) (p q : Package)
    (flavor feature version : String)
    (hk : (mapKeys p.AllCapabilities).Nodup)
    (hheap : q.heap = p.heap)
    (hperm : q.AllCapabilities.Perm p.AllCapabilities) :
    HasCapability ops p flavor feature version
        = HasCapabilityDirect ops p flavor feature version ∧
      HasCapability ops q flavor feature version
        = HasCapability ops p flavor feature version := by
  have hkq : (mapKeys q.AllCapabilities).Nodup := ((hperm.map Prod.fst).nodup_iff).2 hk
  have hp := HasCapability_eq_direct ops p flavor feature version hk
  have hq := HasCapability_eq_direct ops q flavor feature version hkq
  refine ⟨hp, ?_⟩
  rw [hq, hp]
  unfold HasCapabilityDirect
  rw [mapGet_perm q.AllCapabilities p.AllCapabilities flavor hperm hkq, hheap]

/-- Witness of C16: the initialised package, visited in the order of the source and in
the reverse order. -/
theorem HasCapability_order_independent_witness :
    HasCapability specHelpers (initPackage sampleGlobals) PxcFlavor XtradbCluster "5.6.14"
        = HasCapabilityDirect specHelpers (initPackage sampleGlobals) PxcFlavor XtradbCluster
            "5.6.14" ∧
      HasCapability specHelpers (initPackage sampleGlobals).reversed PxcFlavor XtradbCluster
          "5.6.14"
        = HasCapability specHelpers (initPackage sampleGlobals) PxcFlavor XtradbCluster
            "5.6.14" :=
  HasCapability_order_independent specHelpers (initPackage sampleGlobals)
    (initPackage sampleGlobals).reversed PxcFlavor XtradbCluster "5.6.14"
    (by decide) rfl (List.reverse_perm _)

/-- C17. For a package with the heap of the initialised one and the entries of its
catalog in any order, and a version string that parses to `vl`: `HasCapability` for
`installdb` on `mariadb` is the outcome of
`GreaterOrEqualVersionList(vl, MinimumMySQLInstallDb)`; so above a `MaximumMySQLInstallDb`
that is not `nil` it stays true where `mysql` answers false.  The `dynVars` and `semiSync`
entries of `mariadb` are the entries of `mysql`, and `HasCapability` agrees between the
two flavors on these features for every version string. -/
theorem HasCapability_mariadb (ops : VersionHelpers) (g : Globals) (p : Package)
    (hheap : p.heap = (initPackage g).heap)
    (hall : p.AllCapabilities.Perm (initPackage g).AllCapabilities) :
    (∀ v vl b, ops.VersionToList v = (vl, none) →
        ops.GreaterOrEqualVersionList vl g.MinimumMySQLInstallDb = (b, none) →
        HasCapability ops p MariaDbFlavor InstallDb v = (b, none)) ∧
      (∀ v vl b err, ops.VersionToList v = (vl, none) →
        ops.GreaterOrEqualVersionList vl g.MinimumMySQLInstallDb = (b, some err) →
        HasCapability ops p MariaDbFlavor InstallDb v = (false, some err)) ∧
      (∀ v vl u, ops.VersionToList v = (vl, none) →
        g.MaximumMySQLInstallDb = some u →
        ops.GreaterOrEqualVersionList vl g.MinimumMySQLInstallDb = (true, none) →
        ops.GreaterOrEqualVersionList (some u) vl = (false, none) →
        HasCapability ops p MariaDbFlavor InstallDb v = (true, none) ∧
          HasCapability ops p MySQLFlavor InstallDb v = (false, none)) ∧
      (mapGet ((initPackage g).heap.read (initPackage g).MariadbCapabilities.Features)
          DynVariables =
        mapGet ((initPackage g).heap.read (initPackage g).MySQLCapabilities.Features)
          DynVariables ∧
       mapGet ((initPackage g).heap.read (initPackage g).MariadbCapabilities.Features)
          SemiSynch =
        mapGet ((initPackage g).heap.read (initPackage g).MySQLCapabilities.Features)
          SemiSynch) ∧
      (∀ v, HasCapability ops p MariaDbFlavor DynVariables v
          = HasCapability ops p MySQLFlavor DynVariables v ∧
        HasCapability ops p MariaDbFlavor SemiSynch v
          = HasCapability ops p MySQLFlavor SemiSynch v) := by
  obtain ⟨hmy, _, _, hma⟩ := initPackage_features g
  obtain ⟨hvmy, _, _, hvma⟩ := initPackage_vars g
  obtain ⟨⟨hd₅, hd₀⟩, ⟨hs₅, hs₀⟩⟩ := mapGet_mariadb_shared g
  have hmaria : ∀ v vl, ops.VersionToList v = (vl, none) →
      HasCapability ops p MariaDbFlavor InstallDb v =
        capabilityAnswer ops vl ⟨"uses mysql_install_db", g.MinimumMySQLInstallDb, none⟩ := by
    intro v vl hv
    rw [HasCapability_of_flavor ops g p hheap hall _ InstallDb v _ hma]
    exact answerIn_defined ops _ InstallDb v vl _ hv (mapGet_mariadb_installdb g)
  have hmysql : ∀ v vl, ops.VersionToList v = (vl, none) →
      HasCapability ops p MySQLFlavor InstallDb v =
        capabilityAnswer ops vl
          ⟨"uses mysql_install_db", g.MinimumMySQLInstallDb, g.MaximumMySQLInstallDb⟩ := by
    intro v vl hv
    rw [HasCapability_of_flavor ops g p hheap hall _ InstallDb v _ hmy]
    exact answerIn_defined ops _ InstallDb v vl _ hv (mapGet_mysql_installdb g)
  refine ⟨?_, ?_, ?_, ?_, ?_⟩
  · intro v vl b hv hb
    rw [hmaria v vl hv]
    unfold capabilityAnswer
    simp only [hb, Bool.and_true]
  · intro v vl b err hv hb
    rw [hmaria v vl hv]
    unfold capabilityAnswer
    simp only [hb]
  · intro v vl u hv hu hmin hmax
    constructor
    · rw [hmaria v vl hv]
      unfold capabilityAnswer
      simp only [hmin, Bool.and_true]
    · rw [hmysql v vl hv]
      unfold capabilityAnswer
      simp only [hmin, hu, hmax, Bool.and_false]
  · rw [hvmy, hvma]
    exact ⟨hd₅.trans hd₀.symm, hs₅.trans hs₀.symm⟩
  · intro v
    constructor
    · rw [HasCapability_of_flavor ops g p hheap hall _ DynVariables v _ hma,
        HasCapability_of_flavor ops g p hheap hall _ DynVariables v _ hmy]
      exact answerIn_congr ops _ _ DynVariables v (hd₅.trans hd₀.symm)
    · rw [HasCapability_of_flavor ops g p hheap hall _ SemiSynch v _ hma,
        HasCapability_of_flavor ops g p hheap hall _ SemiSynch v _ hmy]
      exact answerIn_congr ops _ _ SemiSynch v (hs₅.trans hs₀.symm)

/-- Witness of C17: at 10.4.3, above `MaximumMySQLInstallDb`, `installdb` is supported on
`mariadb` and not on `mysql`; `dynVars` agrees between the two at 5.0.96. -/
theorem HasCapability_mariadb_witness :
    (HasCapability specHelpers (initPackage sampleGlobals) MariaDbFlavor InstallDb "10.4.3"
        = (true, none) ∧
      HasCapability specHelpers (initPackage sampleGlobals) MySQLFlavor InstallDb "10.4.3"
        = (false, none)) ∧
      HasCapability specHelpers (initPackage sampleGlobals) MariaDbFlavor DynVariables
          "5.0.96"
        = HasCapability specHelpers (initPackage sampleGlobals) MySQLFlavor DynVariables
          "5.0.96" :=
  ⟨(HasCapability_mariadb specHelpers sampleGlobals (initPackage sampleGlobals) rfl
      (List.Perm.refl _)).2.2.1 "10.4.3" (some [10, 4, 3]) [5, 6, 999]
      (by decide) rfl (by decide) (by decide),
   ((HasCapability_mariadb specHelpers sampleGlobals (initPackage sampleGlobals) rfl
      (List.Perm.refl _)).2.2.2.2 "5.0.96").1⟩

/-! ## Flavor detection: the order of `FlavorCompositionList` -/

/-- Detection returns the flavor of the first indicator of the list that matches. -/
theorem detectFlavor_eq_find (fileExists : ElementPath → Bool) (l : List FlavorIndicator) :
    detectFlavor fileExists l =
      (match l.find? (indicatorMatches fileExists) with
       | some fi => fi.flavor
       | none => unknownFlavor) := by
  induction l with
  | nil => rfl
  | cons fi rest ih =>
    by_cases hfi : indicatorMatches fileExists fi = true
    · simp [detectFlavor, List.find?, hfi]
    · simp only [Bool.not_eq_true] at hfi
      simp [detectFlavor, List.find?, hfi, ih]

/-- C11. First-match detection over `FlavorCompositionList` returns `mysql` on a directory
that holds only `bin/mysqld`; and for every set of existing files in which `bin/mysqld`
exists and no indicator of another flavor matches, detection returns `mysql`. -/
theorem detectFlavor_mysqld :
    detectFlavor (directoryOf [⟨"bin", "mysqld"⟩]) FlavorCompositionList = MySQLFlavor ∧
      ∀ (fileExists : ElementPath → Bool), fileExists ⟨"bin", "mysqld"⟩ = true →
        (∀ fi, fi ∈ FlavorCompositionList → fi.flavor ≠ MySQLFlavor →
          indicatorMatches fileExists fi = false) →
        detectFlavor fileExists FlavorCompositionList = MySQLFlavor := by
  refine ⟨by decide, ?_⟩
  intro fileExists hmysqld hothers
  have hlast : indicatorMatches fileExists
      { AllNeeded := false,
        elements := [⟨"bin", "mysqld"⟩, ⟨"bin", "mysqld-debug"⟩, ⟨"lib", "libmysqlclient.a"⟩],
        flavor := MySQLFlavor } = true := by
    simp [indicatorMatches, hmysqld]
  rw [detectFlavor_eq_find]
  cases hfind : FlavorCompositionList.find? (indicatorMatches fileExists) with
  | none =>
    have hno := List.find?_eq_none.1 hfind _ (by decide :
      ({ AllNeeded := false,
         elements := [⟨"bin", "mysqld"⟩, ⟨"bin", "mysqld-debug"⟩,
           ⟨"lib", "libmysqlclient.a"⟩],
         flavor := MySQLFlavor } : FlavorIndicator) ∈ FlavorCompositionList)
    exact absurd hlast hno
  | some fi =>
    have hmatch : indicatorMatches fileExists fi = true := List.find?_some hfind
    have hmem : fi ∈ FlavorCompositionList := List.mem_of_find?_eq_some hfind
    by_contra hne
    have hfalse := hothers fi hmem hne
    rw [hmatch] at hfalse
    cases hfalse

/-- Witness of C11: `bin/mysqld` together with `bin/garbd`, which alone matches no
indicator of another flavor. -/
theorem detectFlavor_mysqld_witness :
    detectFlavor (directoryOf [⟨"bin", "mysqld"⟩, ⟨"bin", "garbd"⟩]) FlavorCompositionList
      = MySQLFlavor :=
  detectFlavor_mysqld.2 (directoryOf [⟨"bin", "mysqld"⟩, ⟨"bin", "garbd"⟩]) (by decide)
    (by
      intro fi hmem hne
      simp only [FlavorCompositionList, List.mem_cons, List.mem_singleton, List.not_mem_nil,
        or_false] at hmem
      rcases hmem with rfl | rfl | rfl | rfl | rfl | rfl | rfl
      · decide
      · decide
      · decide
      · decide
      · decide
      · decide
      · exact absurd rfl hne)

/-- C12. First-match detection over `FlavorCompositionList` returns the sentinel `unknown`
on an empty directory, and on every set of existing files that holds none of the elements
listed in `FlavorCompositionList`; the sentinel is the flavor of no indicator.  Detection
is a total function: it returns a flavor name in every case. -/
theorem detectFlavor_unknown :
    detectFlavor (directoryOf []) FlavorCompositionList = unknownFlavor ∧
      (∀ fi, fi ∈ FlavorCompositionList → fi.flavor ≠ unknownFlavor) ∧
      ∀ (fileExists : ElementPath → Bool),
        (∀ fi, fi ∈ FlavorCompositionList → ∀ e, e ∈ fi.elements → fileExists e = false) →
        detectFlavor fileExists FlavorCompositionList = unknownFlavor := by
  refine ⟨by decide, by decide, ?_⟩
  intro fileExists hnone
  have hno : ∀ fi, fi ∈ FlavorCompositionList → indicatorMatches fileExists fi = false := by
    intro fi hmem
    have hfi := hnone fi hmem
    simp only [FlavorCompositionList, List.mem_cons, List.mem_singleton, List.not_mem_nil,
      or_false] at hmem
    rcases hmem with rfl | rfl | rfl | rfl | rfl | rfl | rfl <;>
      simp only [List.mem_cons, List.mem_singleton, List.not_mem_nil, or_false,
        forall_eq_or_imp, forall_eq] at hfi <;>
      simp [indicatorMatches, hfi]
  rw [detectFlavor_eq_find, List.find?_eq_none.2 (fun fi hmem => by simp [hno fi hmem])]

/-- Witness of C12: a directory with files that no indicator lists. -/
theorem detectFlavor_unknown_witness :
    detectFlavor (directoryOf [⟨"bin", "postgres"⟩, ⟨"share", "mysqld"⟩])
      FlavorCompositionList = unknownFlavor :=
  detectFlavor_unknown.2.2 (directoryOf [⟨"bin", "postgres"⟩, ⟨"share", "mysqld"⟩])
    (by
      intro fi hmem
      simp only [FlavorCompositionList, List.mem_cons, List.mem_singleton, List.not_mem_nil,
        or_false] at hmem
      rcases hmem with rfl | rfl | rfl | rfl | rfl | rfl | rfl <;> decide)

/-- C13. `FlavorCompositionList` lists the indicators with `AllNeeded = true` before those
with `AllNeeded = false`: the flags are three times `true`, then four times `false`; an
indicator that comes before one with `AllNeeded = true` has `AllNeeded = true` itself, so
no indicator for which a single element suffices precedes one that needs all its elements;
and every indicator with `AllNeeded = true` lists several elements. -/
theorem FlavorCompositionList_ordered :
    FlavorCompositionList.map FlavorIndicator.AllNeeded
        = [true, true, true, false, false, false, false] ∧
      FlavorCompositionList.Pairwise (fun a b => b.AllNeeded = true → a.AllNeeded = true) ∧
      (∀ pre fi post, FlavorCompositionList = pre ++ fi :: post → fi.AllNeeded = true →
        ∀ fj, fj ∈ pre → fj.AllNeeded = true) ∧
      (∀ fi, fi ∈ FlavorCompositionList → fi.AllNeeded = true → 1 < fi.elements.length) := by
  have hpair : FlavorCompositionList.Pairwise
      (fun a b => b.AllNeeded = true → a.AllNeeded = true) := by decide
  refine ⟨by decide, hpair, ?_, by decide⟩
  intro pre fi post hsplit hfi fj hfj
  rw [hsplit] at hpair
  exact (List.pairwise_append.1 hpair).2.2 fj hfj fi (List.mem_cons_self _ _) hfi

/-- Witness of C13: the two indicators before the third `pxc` indicator have
`AllNeeded = true`. -/
theorem FlavorCompositionList_ordered_witness :
    ∀ fj, fj ∈ FlavorCompositionList.take 2 → fj.AllNeeded = true :=
  FlavorCompositionList_ordered.2.2.1 (FlavorCompositionList.take 2)
    (FlavorCompositionList.get ⟨2, by decide⟩) (FlavorCompositionList.drop 3)
    (by decide) (by decide)

/-- C18. No indicator of `FlavorCompositionList` is shadowed: for every indicator there is
a set of files, its own elements, on which it is the first indicator that matches, and
detection then returns its flavor; and each of `pxc`, `mariadb`, `percona`, `tidb` and
`mysql` is the result of detection on some set of files. -/
theorem FlavorCompositionList_no_shadowing :
    (∀ fi, fi ∈ FlavorCompositionList →
        FlavorCompositionList.find? (indicatorMatches (directoryOf fi.elements)) = some fi ∧
          detectFlavor (directoryOf fi.elements) FlavorCompositionList = fi.flavor) ∧
      (∀ flavor, flavor ∈ [PxcFlavor, MariaDbFlavor, PerconaServerFlavor, TiDbFlavor,
          MySQLFlavor] →
        ∃ files, detectFlavor (directoryOf files) FlavorCompositionList = flavor) := by
  have hfirst : ∀ fi, fi ∈ FlavorCompositionList →
      FlavorCompositionList.find? (indicatorMatches (directoryOf fi.elements)) = some fi ∧
        detectFlavor (directoryOf fi.elements) FlavorCompositionList = fi.flavor := by
    intro fi hmem
    simp only [FlavorCompositionList, List.mem_cons, List.mem_singleton, List.not_mem_nil,
      or_false] at hmem
    rcases hmem with rfl | rfl | rfl | rfl | rfl | rfl | rfl <;> decide
  refine ⟨hfirst, ?_⟩
  intro flavor hflavor
  simp only [List.mem_cons, List.mem_singleton, List.not_mem_nil, or_false] at hflavor
  rcases hflavor with rfl | rfl | rfl | rfl | rfl
  · exact ⟨_, (hfirst (FlavorCompositionList.get ⟨0, by decide⟩) (by decide)).2⟩
  · exact ⟨_, (hfirst (FlavorCompositionList.get ⟨3, by decide⟩) (by decide)).2⟩
  · exact ⟨_, (hfirst (FlavorCompositionList.get ⟨4, by decide⟩) (by decide)).2⟩
  · exact ⟨_, (hfirst (FlavorCompositionList.get ⟨5, by decide⟩) (by decide)).2⟩
  · exact ⟨_, (hfirst (FlavorCompositionList.get ⟨6, by decide⟩) (by decide)).2⟩

/-- Witness of C18: the `percona` indicator, fifth in the list, is the first that matches
on the three `libperconaserverclient` files. -/
theorem FlavorCompositionList_no_shadowing_witness :
    detectFlavor (directoryOf [⟨"lib", "libperconaserverclient.a"⟩,
        ⟨"lib", "libperconaserverclient.so"⟩, ⟨"lib", "libperconaserverclient.dylib"⟩])
      FlavorCompositionList = PerconaServerFlavor :=
  (FlavorCompositionList_no_shadowing.1
    { AllNeeded := false,
      elements := [⟨"lib", "libperconaserverclient.a"⟩,
        ⟨"lib", "libperconaserverclient.so"⟩, ⟨"lib", "libperconaserverclient.dylib"⟩],
      flavor := PerconaServerFlavor }
    (by decide)).2

end Common
